import Mathlib

/-!
Verification of the sortface backend (crash-safe face-based photo segregation).

Shallow embedding of `src/backend/app`:
* registry store (`db/registry.py`): persons, embeddings, centroids;
* matcher (`engine/match.py`): dual-threshold nearest-centroid resolution;
* routing (`engine/routing.py`): idempotent fan-out commit to person folders;
* compression (`engine/compress.py`, `engine/raw_convert.py`): write traces;
* batch engine (`engine/batch_engine.py`): stream-commit state machine;
* worker (`worker/runner.py`): resume and error-reset transitions.

Numeric conventions: the Python code computes L2 norms and distances with
floating point.  The model works over `ℚ`.  Square roots are modelled by
`sqrtQ`, which is exact precisely on rationals whose numerator and
denominator are perfect squares; theorems that depend on the value of a
norm carry an exactness hypothesis of the form `sqrtQ q * sqrtQ q = q`.
Distance *comparisons* against the thresholds 0.80 and 1.00 are modelled
by comparing squared distances against the squared thresholds 16/25 and 1,
which is equivalent because `Real.sqrt` is monotone and both sides are
nonnegative.
-/

namespace SortFace

/-! ### Vectors over ℚ (embeddings, `np.ndarray` of floats in the source) -/

/-- An embedding vector (`np.ndarray` of dimension D), modelled over ℚ. -/
abbrev Vec := List ℚ

/-- Componentwise sum (`numpy` vector addition). -/
def vadd (v w : Vec) : Vec := List.zipWith (· + ·) v w

/-- Componentwise difference (`u - c` in `match`). -/
def vsub (v w : Vec) : Vec := List.zipWith (· - ·) v w

/-- Squared L2 norm: `np.linalg.norm(v) ** 2`. -/
def normSq (v : Vec) : ℚ := (v.map fun x => x * x).sum

/-- Squared Euclidean distance `‖u − c‖₂²`. -/
def distSq (u c : Vec) : ℚ := normSq (vsub u c)

/-- Rational square root: exact whenever the argument's numerator and
denominator are perfect squares (the only inputs our theorems use),
nonnegative always. -/
def sqrtQ (q : ℚ) : ℚ := (Nat.sqrt q.num.toNat : ℚ) / (Nat.sqrt q.den : ℚ)

/-- `normalize_embedding` (registry.py lines 13-18): divide by the L2 norm
when it is positive, otherwise return the vector unchanged. -/
def normalize_embedding (v : Vec) : Vec :=
  let n := sqrtQ (normSq v)
  if 0 < n then v.map (· / n) else v

/-- `serialize_embedding` (registry.py lines 21-24): always normalizes before
storing.  The float32 byte round-trip is modelled as the identity. -/
def serialize_embedding (v : Vec) : Vec := normalize_embedding v

/-- Vector sum of a nonempty list (first step of `np.mean(embeddings, axis=0)`). -/
def vsum : List Vec → Vec
  | [] => []
  | v :: vs => vs.foldl vadd v

/-- `np.mean(embeddings, axis=0)`: componentwise mean. -/
def meanVec (l : List Vec) : Vec := (vsum l).map (· / (l.length : ℚ))

/-! ### Registry store (`db/registry.py`)

The SQL tables are modelled as lists kept in rowid (= insertion) order:
`persons`, `person_embeddings` (a single flat table tagged by `person_id`)
and `person_centroids`.  `created_at` is modelled by a strictly monotone
clock (`datetime('now')`), one tick per insert, and `embedding_id` by
`nextEmbId` (SQLite rowid autoincrement). -/

/-- A row of the `persons` table. -/
structure Person where
  pid : Nat
  name : String
  folderRel : String
  deriving Repr, DecidableEq

/-- A row of the `person_embeddings` table (minus the `person_id` key). -/
structure EmbRow where
  embId : Nat
  createdAt : Nat
  sourceType : String
  vec : Vec
  deriving Repr, DecidableEq

/-- A row of the `person_centroids` table (minus the `person_id` key). -/
structure CentroidRow where
  centroid : Vec
  embeddingCount : Nat
  deriving Repr, DecidableEq

/-- The catalog state relevant to the registry operations. -/
structure Registry where
  persons : List Person
  embs : List (Nat × EmbRow)
  cents : List (Nat × CentroidRow)
  nextEmbId : Nat
  clock : Nat
  deriving Repr, DecidableEq

/-- `SELECT ... FROM person_embeddings WHERE person_id = ?` in rowid order,
which by construction is `created_at` order. -/
def embsOf (r : Registry) (pid : Nat) : List EmbRow :=
  (r.embs.filter (fun e => e.1 = pid)).map (·.2)

/-- The centroid row of a person, if present. -/
def centOf (r : Registry) (pid : Nat) : Option CentroidRow :=
  (r.cents.find? (fun c => c.1 = pid)).map (·.2)

/-- Whether a person row exists (foreign-key target for embedding inserts). -/
def personExists (r : Registry) (pid : Nat) : Bool :=
  r.persons.any (fun p => p.pid = pid)

/-- `settings.max_embeddings_per_person` (config.py line 37, default 30). -/
def max_embeddings_per_person : Nat := 30

/-- The FIFO trim (registry.py lines 149-161):
`DELETE FROM person_embeddings WHERE embedding_id IN
 (SELECT embedding_id ... WHERE person_id = ? ORDER BY created_at ASC LIMIT k)`.
Rows are stored in `created_at` order, so the selected ids are the first `k`
ids of the person's rows. -/
def deleteOldest (embs : List (Nat × EmbRow)) (pid k : Nat) : List (Nat × EmbRow) :=
  let doomed := (((embs.filter (fun e => e.1 = pid)).map (fun e => e.2.embId)).take k)
  embs.filter (fun e => !(doomed.contains e.2.embId))

/-- Upsert of the centroid row
(`INSERT ... ON CONFLICT(person_id) DO UPDATE`, registry.py lines 203-211). -/
def upsertCent (cs : List (Nat × CentroidRow)) (pid : Nat) (row : CentroidRow) :
    List (Nat × CentroidRow) :=
  if cs.any (fun c => c.1 = pid) then
    cs.map (fun c => if c.1 = pid then (pid, row) else c)
  else cs ++ [(pid, row)]

/-- `_update_centroid` (registry.py lines 169-211): refetch the surviving
embeddings; if none, delete the centroid row; otherwise store the
re-normalized mean (serialization normalizes once more). -/
def update_centroid (r : Registry) (pid : Nat) : Registry :=
  let rows := embsOf r pid
  if rows.isEmpty then
    { r with cents := r.cents.filter (fun c => !(c.1 = pid)) }
  else
    let c := serialize_embedding (normalize_embedding (meanVec (rows.map (·.vec))))
    { r with cents := upsertCent r.cents pid ⟨c, rows.length⟩ }

/-- `add_person_embedding` (registry.py lines 120-166), one transaction:
insert → count → FIFO trim when over the cap → centroid recompute.
`none` models the rolled-back foreign-key failure when the person is
missing; otherwise the whole operation is a single state transition. -/
def add_person_embedding (r : Registry) (pid : Nat) (v : Vec) (sourceType : String) :
    Option Registry :=
  if !(personExists r pid) then none else
  let row : EmbRow := ⟨r.nextEmbId, r.clock, sourceType, serialize_embedding v⟩
  let embs1 := r.embs ++ [(pid, row)]
  let count := (embs1.filter (fun e => e.1 = pid)).length
  let embs2 :=
    if count > max_embeddings_per_person then
      deleteOldest embs1 pid (count - max_embeddings_per_person)
    else embs1
  let r1 : Registry :=
    { r with embs := embs2, nextEmbId := r.nextEmbId + 1, clock := r.clock + 1 }
  some (update_centroid r1 pid)

/-- `delete_person` (registry.py lines 91-117): delete embeddings, centroid,
then the person row; returns whether a person row was deleted. -/
def delete_person (r : Registry) (pid : Nat) : Registry × Bool :=
  let r1 : Registry :=
    { r with
      embs := r.embs.filter (fun e => !(e.1 = pid)),
      cents := r.cents.filter (fun c => !(c.1 = pid)),
      persons := r.persons.filter (fun p => !(p.pid = pid)) }
  (r1, personExists r pid)

/-- Iterated `add_person_embedding` (a sequence of N adds to one person). -/
def add_many (r : Registry) (pid : Nat) (vs : List Vec) : Option Registry :=
  vs.foldlM (fun s v => add_person_embedding s pid v "reference") r

/-- Well-formedness of the modelled tables: strictly increasing (hence
distinct) embedding rowids and `created_at` stamps, both below the
allocation counters. -/
structure RegistryWF (r : Registry) : Prop where
  ids : (r.embs.map (fun e => e.2.embId)).Pairwise (· < ·)
  idsLt : ∀ e ∈ r.embs, e.2.embId < r.nextEmbId
  times : (r.embs.map (fun e => e.2.createdAt)).Pairwise (· < ·)
  timesLt : ∀ e ∈ r.embs, e.2.createdAt < r.clock

/-! ### Matcher (`engine/match.py`) -/

/-- One element of `get_all_centroids` (registry.py lines 214-236):
`SELECT p.person_id, p.name, p.output_folder_rel, pc.centroid FROM persons p
 INNER JOIN person_centroids pc ...`. -/
structure CentEntry where
  pid : Nat
  name : String
  folderRel : String
  centroid : Vec
  deriving Repr, DecidableEq

/-- `get_all_centroids`: the join scans `persons` in rowid order (the query
carries no ORDER BY; SQLite emits the `persons` table scan order, which is
ascending `person_id`). -/
def get_all_centroids (r : Registry) : List CentEntry :=
  r.persons.filterMap fun p =>
    (centOf r p.pid).map (fun c => ⟨p.pid, p.name, p.folderRel, c.centroid⟩)

/-- The closed sum behind the `match_type` strings of match.py. -/
inductive MatchType where
  | strict
  | loose
  | unknown
  deriving Repr, DecidableEq

/-- `MatchResult` (match.py lines 29-59).  `distance` holds the *squared*
distance (see the header) with `⊤` standing for `float("inf")`. -/
structure MatchResult where
  person_id : Option Nat
  name : Option String
  output_folder_rel : Option String
  distance : WithTop ℚ
  match_type : MatchType
  deriving Repr, DecidableEq

/-- `MatchResult.is_matched` (match.py lines 46-49). -/
def MatchResult.is_matched (m : MatchResult) : Bool :=
  match m.match_type with
  | .strict => true
  | .loose => true
  | .unknown => false

/-- `self.threshold_strict = 0.80` (match.py line 92), squared. -/
def threshold_strict_sq : ℚ := 16 / 25

/-- `self.threshold_loose = 1.00` (match.py line 93), squared. -/
def threshold_loose_sq : ℚ := 1

/-- `FaceMatcher` state: `_selected_person_ids` is `none` when the
constructor argument was falsy (match.py lines 95-97), and the lazily
refreshed `_centroids_cache`. -/
structure Matcher where
  selected_person_ids : Option (List Nat)
  centroids_cache : Option (List CentEntry)
  deriving Repr, DecidableEq

/-- The filtering step of `refresh_centroids` (match.py lines 104-112). -/
def filter_selected (sel : Option (List Nat)) (cs : List CentEntry) : List CentEntry :=
  match sel with
  | some ids => cs.filter (fun c => ids.contains c.pid)
  | none => cs

/-- `refresh_centroids` (match.py lines 99-112). -/
def refresh_centroids (m : Matcher) (r : Registry) : Matcher :=
  { m with centroids_cache := some (filter_selected m.selected_person_ids (get_all_centroids r)) }

/-- The selection `distances.sort(key=fst); distances[0]` (match.py lines
147-155): Python's sort is stable, so element 0 is the *first* entry of the
cache attaining the minimal distance; the fold keeps the current best on
ties (`<` to replace), which computes exactly that element. -/
def select_best (u : Vec) (acc : ℚ × CentEntry) : List CentEntry → ℚ × CentEntry
  | [] => acc
  | e :: es =>
      select_best u (if distSq u e.centroid < acc.1 then (distSq u e.centroid, e) else acc) es

/-- `FaceMatcher.match` (match.py lines 114-198) as one state transition:
returns the result, the possibly refreshed matcher, and the registry
(changed only by learning on a strict match).  A foreign-key failure of the
learning insert rolls back, leaving the registry unchanged (`getD r`). -/
def match_embedding (m0 : Matcher) (r : Registry) (embedding : Vec) (learn_on_strict : Bool) :
    MatchResult × Matcher × Registry :=
  let m := match m0.centroids_cache with
    | none => refresh_centroids m0 r
    | some _ => m0
  match m.centroids_cache.getD [] with
  | [] => (⟨none, none, none, ⊤, .unknown⟩, m, r)
  | e :: es =>
    let u := normalize_embedding embedding
    let best := select_best u (distSq u e.centroid, e) es
    if best.1 ≤ threshold_strict_sq then
      let r' := if learn_on_strict then (add_person_embedding r best.2.pid embedding "learned").getD r
                else r
      let m' := if learn_on_strict then refresh_centroids m r' else m
      (⟨some best.2.pid, some best.2.name, some best.2.folderRel, (best.1 : ℚ), .strict⟩, m', r')
    else if best.1 ≤ threshold_loose_sq then
      (⟨some best.2.pid, some best.2.name, some best.2.folderRel, (best.1 : ℚ), .loose⟩, m, r)
    else
      (⟨none, none, none, (best.1 : ℚ), .unknown⟩, m, r)

/-! ### Filesystem model and routing (`engine/routing.py`)

Paths are component lists; a filesystem is an association list from paths
to file contents.  Routing functions return the per-target results, the
commit log, and the list of filesystem operations they perform, in order;
`applyEvs` is the semantics of such a list. -/

/-- A filesystem path, as components. -/
abbrev FPath := List String

/-- A filesystem: existing regular files with their contents. -/
abbrev FS := List (FPath × String)

/-- Content of a file, if it exists. -/
def fsLookup (fs : FS) (p : FPath) : Option String :=
  (fs.find? (fun e => e.1 = p)).map (·.2)

/-- `Path.exists()`. -/
def fsExists (fs : FS) (p : FPath) : Bool := (fsLookup fs p).isSome

/-- Remove a path (no error if absent). -/
def fsRemove (fs : FS) (p : FPath) : FS := fs.filter (fun e => !(e.1 = p))

/-- Create or overwrite a file. -/
def fsSet (fs : FS) (p : FPath) (c : String) : FS := fsRemove fs p ++ [(p, c)]

/-- A filesystem operation performed by the engines. -/
inductive FsEv where
  | mkdir (p : FPath)
  | write (p : FPath) (content : String)
  | rename (src dst : FPath)
  | unlink (p : FPath)
  deriving Repr, DecidableEq

/-- Semantics of one operation.  `mkdir` does not affect regular files;
`rename` moves the source content onto the destination (POSIX `rename`
replaces an existing destination). -/
def applyEv (fs : FS) : FsEv → FS
  | .mkdir _ => fs
  | .write p c => fsSet fs p c
  | .rename s d =>
      match fsLookup fs s with
      | some c => fsSet (fsRemove fs s) d c
      | none => fs
  | .unlink p => fsRemove fs p

/-- Semantics of an operation list. -/
def applyEvs (fs : FS) (evs : List FsEv) : FS := evs.foldl applyEv fs

/-- `generate_deterministic_filename` (storage/paths.py lines 155-171). -/
def generate_deterministic_filename (original_stem file_hash : String) : String :=
  original_stem ++ "__" ++ (file_hash.take 12) ++ ".jpg"

/-- `Path.with_suffix(".tmp")` applied to a file name ending in `.jpg`:
drop the 4-character extension and append `.tmp`. -/
def tmpName (filename : String) : String := filename.dropRight 4 ++ ".tmp"

/-- `path.with_suffix(".tmp")` on a full path. -/
def tmpPathOf (p : FPath) : FPath := p.dropLast ++ [tmpName (p.getLastD "")]

/-- A commit-log row.  Modelled from the spec: the commit-log store
(`add_commit_entry` / `update_commit_status` / `check_output_exists_in_log`
of `db/jobs.py`) is imported by routing.py but absent from `src/`; §4.G and
§9 of the spec describe it as an audit log of fan-out outputs keyed by
output path with a status, used for the idempotency check. -/
structure CommitEntry where
  commitId : Nat
  batchId : Nat
  imageId : Nat
  personId : Nat
  outputFilename : String
  outputPath : FPath
  status : String
  deriving Repr, DecidableEq

/-- The commit-log table with its rowid counter. -/
structure CommitLog where
  entries : List CommitEntry
  nextId : Nat
  deriving Repr, DecidableEq

/-- Modelled from the spec: `add_commit_entry` appends a pending audit row
and returns its id. -/
def add_commit_entry (log : CommitLog) (batchId imageId personId : Nat)
    (outputFilename : String) (outputPath : FPath) : CommitLog × Nat :=
  ({ entries := log.entries ++
      [⟨log.nextId, batchId, imageId, personId, outputFilename, outputPath, "pending"⟩],
     nextId := log.nextId + 1 }, log.nextId)

/-- Modelled from the spec: `update_commit_status` updates the status of an
audit row. -/
def update_commit_status (log : CommitLog) (cid : Nat) (st : String) : CommitLog :=
  { log with entries := log.entries.map fun e =>
      if e.commitId = cid then { e with status := st } else e }

/-- Modelled from the spec: `check_output_exists_in_log` reports whether an
output path was already recorded in the audit log. -/
def check_output_exists_in_log (log : CommitLog) (p : FPath) : Bool :=
  log.entries.any (fun e => e.outputPath = p)

/-- Per-target outcome of `_route_to_person` (status strings as in the
source: "error", "skipped", "exists", "success", "unverified"). -/
structure RouteResult where
  person_id : Nat
  status : String
  output_path : Option FPath
  deriving Repr, DecidableEq

/-- `RoutingEngine._route_to_person` (routing.py lines 104-204).
`copy_fails` injects a `WriteFailed` at the `shutil.copy2` call (the
exception the source absorbs per target); a missing staged file likewise
errors.  On the write path the operations are: mkdir of the person folder,
copy to `dst.tmp`, rename to `dst`. -/
def route_to_person (r : Registry) (fs : FS) (log : CommitLog)
    (batch_id image_id person_id : Nat) (staged_path : FPath)
    (output_filename : String) (output_root : FPath) (copy_fails : Bool) :
    RouteResult × CommitLog × List FsEv :=
  match r.persons.find? (fun p => p.pid = person_id) with
  | none => (⟨person_id, "error", none⟩, log, [])
  | some person =>
    let person_folder := output_root ++ [person.folderRel]
    let output_path := person_folder ++ [output_filename]
    if check_output_exists_in_log log output_path then
      (⟨person_id, "skipped", some output_path⟩, log, [])
    else if fsExists fs output_path then
      let lc := add_commit_entry log batch_id image_id person_id output_filename output_path
      (⟨person_id, "exists", some output_path⟩, update_commit_status lc.1 lc.2 "verified", [])
    else
      let lc := add_commit_entry log batch_id image_id person_id output_filename output_path
      match fsLookup fs staged_path, copy_fails with
      | some staged_content, false =>
        let temp_output := person_folder ++ [tmpName output_filename]
        let evs := [FsEv.mkdir person_folder, FsEv.write temp_output staged_content,
                    FsEv.rename temp_output output_path]
        let log2 := update_commit_status lc.1 lc.2 "written"
        if staged_content = "" then
          (⟨person_id, "unverified", some output_path⟩, log2, evs)
        else
          (⟨person_id, "success", some output_path⟩, update_commit_status log2 lc.2 "verified", evs)
      | _, _ =>
        (⟨person_id, "error", some output_path⟩, lc.1, [FsEv.mkdir person_folder])

/-- The fan-out loop of `route_image` (routing.py lines 92-100): each target
is routed against the filesystem as left by the previous targets; outcomes
are collected for every target, errors included. -/
def route_fanout (r : Registry) (batch_id image_id : Nat) (staged_path : FPath)
    (output_filename : String) (output_root : FPath) (fails : Nat → Bool) :
    List Nat → FS → CommitLog → List RouteResult × CommitLog × List FsEv
  | [], _, log => ([], log, [])
  | pid :: rest, fs, log =>
    let step := route_to_person r fs log batch_id image_id pid staged_path
      output_filename output_root (fails pid)
    let next := route_fanout r batch_id image_id staged_path output_filename output_root fails
      rest (applyEvs fs step.2.2) step.2.1
    (step.1 :: next.1, next.2.1, step.2.2 ++ next.2.2)

/-- `RoutingEngine.route_image` (routing.py lines 60-102). -/
def route_image (r : Registry) (fs : FS) (log : CommitLog) (batch_id image_id : Nat)
    (staged_path : FPath) (original_stem file_hash : String) (output_root : FPath)
    (fails : Nat → Bool) (matched_person_ids : List Nat) :
    List RouteResult × CommitLog × List FsEv :=
  if matched_person_ids.isEmpty then ([], log, [])
  else
    let output_filename := generate_deterministic_filename original_stem file_hash
    route_fanout r batch_id image_id staged_path output_filename output_root fails
      matched_person_ids fs log

/-- `RoutingEngine.cleanup_staged_file` (routing.py lines 206-214):
`unlink` wrapped in try/except — total, silently tolerates absence. -/
def cleanup_staged_file (fs : FS) (staged_path : FPath) : FS := fsRemove fs staged_path

/-- The methods defined on `RoutingEngine` (routing.py lines 29-218). -/
def routing_engine_methods : List String :=
  ["route_image", "_route_to_person", "cleanup_staged_file", "get_staging_path"]

/-- Python-level errors the models surface. -/
inductive PyError where
  | attributeError (attr : String)
  | typeError (unexpected_keyword : String)
  deriving Repr, DecidableEq

/-- `settings.staging_dir` (config.py lines 153-156). -/
def staging_dir : FPath := ["hot_storage", "staging"]

/-- `BatchEngine._commit_image` (batch_engine.py lines 406-462): compress
once to staging, route (fan-out, or the group variant), and delete the
staged file in `finally`.  In group mode the call
`self.routing_engine.route_image_to_group(...)` (line 434) resolves no
attribute — `route_image_to_group ∉ routing_engine_methods` — so it raises
`AttributeError` and nothing is routed; the `finally` cleanup still runs. -/
def commit_image (r : Registry) (fs : FS) (log : CommitLog)
    (group_mode : Bool) (group_folder_name : Option String)
    (batch_id image_id : Nat) (original_stem file_hash : String)
    (compressed : String) (output_root : FPath) (fails : Nat → Bool)
    (matched_person_ids : List Nat) :
    Except PyError (List RouteResult) × CommitLog × FS :=
  let output_filename := generate_deterministic_filename original_stem file_hash
  let staged_path := staging_dir ++ [output_filename]
  let fs1 := fsSet fs staged_path compressed
  if group_mode && group_folder_name.isSome then
    (.error (.attributeError "route_image_to_group"), log, cleanup_staged_file fs1 staged_path)
  else
    let routed := route_image r fs1 log batch_id image_id staged_path original_stem file_hash
      output_root fails matched_person_ids
    (.ok routed.1, routed.2.1, cleanup_staged_file (applyEvs fs1 routed.2.2) staged_path)

/-- The group-mode filter of `BatchEngine._process_image` (batch_engine.py
lines 351-363): in group mode with a truthy selection, keep the matched ids
only when every selected person is among them, else clear them so the image
is not routed. -/
def group_filter_matched_ids (group_mode : Bool) (selected_person_ids : Option (List Nat))
    (matched_ids : List Nat) : List Nat :=
  if group_mode && !(selected_person_ids.getD []).isEmpty then
    if (selected_person_ids.getD []).all (fun pid => matched_ids.contains pid) then matched_ids
    else []
  else matched_ids

/-! ### Compression write traces (`engine/compress.py`, `engine/raw_convert.py`) -/

/-- `CompressionEngine.compress` with `staging_dir=None` — the only call in
the batch flow (batch_engine.py line 430): ensure the parent directory,
then `img.save(actual_output, ...)` writes the destination path directly. -/
def compress_events (output_path : FPath) (content : String) : List FsEv :=
  [FsEv.mkdir output_path.dropLast, FsEv.write output_path content]

/-- `RawConversionEngine.convert_for_delivery` (raw_convert.py lines
81-132): ensure the parent directory, then `img.save(output_path, ...)`
writes the destination path directly. -/
def convert_for_delivery_events (output_path : FPath) (content : String) : List FsEv :=
  [FsEv.mkdir output_path.dropLast, FsEv.write output_path content]

/-- The discipline the spec claims for a materialization trace: some write
lands on `dst.tmp` and a rename moves `dst.tmp` onto `dst`. -/
def WritesViaTempRename (evs : List FsEv) (dst : FPath) : Prop :=
  (∃ c, FsEv.write (tmpPathOf dst) c ∈ evs) ∧ FsEv.rename (tmpPathOf dst) dst ∈ evs

/-! ### Batch engine stream trace (`engine/batch_engine.py` lines 108-253)
and worker transitions (`worker/runner.py`) -/

/-- `BatchState` (db/jobs.py lines 13-18). -/
inductive BatchState where
  | PENDING
  | PROCESSING
  | COMMITTING
  | COMMITTED
  deriving Repr, DecidableEq

/-- `job_status` values (jobs.py / spec §3 JobConfig). -/
inductive JobStatus where
  | configured
  | running
  | stopped
  | terminating
  | completed
  deriving Repr, DecidableEq

/-- Observable events of one `process_batch` run: persisted batch-state
writes (`update_batch_state`), the analysis of an image, and the completed
commit of an image. -/
inductive BatchEv where
  | setState (s : BatchState)
  | analyze (image_id : Nat)
  | commit (image_id : Nat)
  deriving Repr, DecidableEq

/-- Per-image outcome of `process_and_commit_single`: the absorbed
per-image exception, or an analysis whose `matched_count` is (`true`) or is
not (`false`) positive.  Matched images are committed immediately. -/
inductive ImgOutcome where
  | errored
  | analyzed (matched : Bool)
  deriving Repr, DecidableEq

/-- `TERMINATE_CHUNK = 10` (batch_engine.py line 212). -/
def TERMINATE_CHUNK : Nat := 10

/-- Events of `process_and_commit_single` for one image (batch_engine.py
lines 166-208): analyze, then commit immediately iff `matched_count > 0`. -/
def image_events (outcome : Nat → ImgOutcome) (i : Nat) : List BatchEv :=
  match outcome i with
  | .errored => [.analyze i]
  | .analyzed false => [.analyze i]
  | .analyzed true => [.analyze i, .commit i]

/-- Events of one chunk: every image of the chunk is analyzed and, if
matched, committed (under `asyncio.gather` all tasks of the chunk complete
before the next chunk starts; the model serializes them). -/
def chunk_events (outcome : Nat → ImgOutcome) (c : List Nat) : List BatchEv :=
  (c.map (image_events outcome)).flatten

/-- `images[i : i + TERMINATE_CHUNK]` slices of the loop at
batch_engine.py line 214. -/
def chunked (l : List Nat) : List (List Nat) :=
  if h : l = [] then []
  else
    l.take TERMINATE_CHUNK ::
      chunked (l.drop TERMINATE_CHUNK)
termination_by l.length
decreasing_by
  have : 0 < l.length := List.length_pos.mpr h
  simp only [List.length_drop, TERMINATE_CHUNK]
  omega

/-- The chunk loop (batch_engine.py lines 214-223): before each chunk the
job status is polled (`status k` is the k-th poll); `terminating` breaks
the loop. -/
def stream_loop (outcome : Nat → ImgOutcome) (status : Nat → JobStatus) :
    List (List Nat) → Nat → List BatchEv
  | [], _ => []
  | c :: cs, k =>
    if status k = .terminating then []
    else chunk_events outcome c ++ stream_loop outcome status cs (k + 1)

/-- `BatchEngine.process_batch` (batch_engine.py lines 108-253) as its
event trace, given the batch's current state: an already-COMMITTED batch is
skipped; an empty batch is stamped COMMITTED; otherwise PROCESSING is
written, the stream loop runs, and COMMITTED is written at the end. -/
def process_batch_events (st0 : BatchState) (images : List Nat)
    (outcome : Nat → ImgOutcome) (status : Nat → JobStatus) : List BatchEv :=
  if st0 = .COMMITTED then []
  else if images.isEmpty then [.setState .COMMITTED]
  else
    .setState .PROCESSING ::
      (stream_loop outcome status (chunked images) 0 ++ [.setState .COMMITTED])

/-- The persisted batch-state writes of a trace. -/
def state_writes (evs : List BatchEv) : List BatchState :=
  evs.filterMap fun e =>
    match e with
    | .setState s => some s
    | _ => none

/-- `WorkerRunner._resume_interrupted` (runner.py lines 211-248) per batch
state: PROCESSING is reset to PENDING; a COMMITTING batch has its commit
phase replayed, which ends with `update_batch_state(batch_id, COMMITTED)`
(batch_engine.py line 498); other states are untouched. -/
def resume_write : BatchState → Option BatchState
  | .PROCESSING => some .PENDING
  | .COMMITTING => some .COMMITTED
  | _ => none

/-- The state written by the worker's error handler when a batch raised
out of `process_batch` (runner.py lines 157-164); it applies to a batch the
engine had moved to PROCESSING. -/
def worker_error_reset : BatchState := .PENDING

/-- Position of a state along the chain PENDING → PROCESSING → COMMITTING
→ COMMITTED. -/
def chainIdx : BatchState → Nat
  | .PENDING => 0
  | .PROCESSING => 1
  | .COMMITTING => 2
  | .COMMITTED => 3

/-- The claim's transition discipline: each write moves to the immediate
successor in the chain. -/
def ImmediateSuccessor (s s' : BatchState) : Prop := chainIdx s' = chainIdx s + 1

/-- The discipline the code actually follows: strictly forward along the
chain (possibly skipping states), or the crash/error reset
PROCESSING → PENDING. -/
def LegalWrite (s s' : BatchState) : Prop :=
  chainIdx s < chainIdx s' ∨ (s = .PROCESSING ∧ s' = .PENDING)

/-! ### The `discover_images` call (`engine/batch_engine.py` lines 88-106
vs `engine/ingest.py` line 90) -/

/-- The keyword parameters accepted by `IngestEngine.run`
(`async def run(self, compute_hashes=True, force_rediscover=True)`,
ingest.py line 90). -/
def ingest_run_params : List String := ["compute_hashes", "force_rediscover"]

/-- The keyword arguments `BatchEngine.discover_images` passes to
`IngestEngine.run` (batch_engine.py lines 94-97). -/
def discover_images_call_kwargs : List String := ["compute_hashes", "selected_image_paths"]

/-- Python call semantics for `self.ingest_engine.run(compute_hashes=False,
selected_image_paths=...)`: a keyword argument naming no parameter raises
`TypeError` before the callee body runs. -/
def discover_images_call : Except PyError Unit :=
  match discover_images_call_kwargs.find? (fun kw => !(ingest_run_params.contains kw)) with
  | some kw => .error (.typeError kw)
  | none => .ok ()

/-- The image ids analyzed in a trace. -/
def analyzed_ids (trace : List BatchEv) : List Nat :=
  trace.filterMap fun e =>
    match e with
    | .analyze i => some i
    | _ => none

/-- The literal reading of the claim's stream-commit contract: the
COMMITTED stamp appears only if every image of the batch either committed
or was analyzed and classified no-match. -/
def CommittedOnlyAfterAllImages (trace : List BatchEv) (images : List Nat)
    (outcome : Nat → ImgOutcome) : Prop :=
  BatchEv.setState .COMMITTED ∈ trace →
    ∀ i ∈ images, BatchEv.commit i ∈ trace ∨
      (BatchEv.analyze i ∈ trace ∧ outcome i = .analyzed false)

instance : DecidableRel ImmediateSuccessor := fun s s' =>
  inferInstanceAs (Decidable (chainIdx s' = chainIdx s + 1))

instance : DecidableRel LegalWrite := fun s s' =>
  inferInstanceAs (Decidable (chainIdx s < chainIdx s' ∨ (s = .PROCESSING ∧ s' = .PENDING)))

/-! ## Theorems -/

/-! ### Batch-trace lemmas -/

theorem state_writes_append (a b : List BatchEv) :
    state_writes (a ++ b) = state_writes a ++ state_writes b := by
  simp [state_writes, List.filterMap_append]

theorem state_writes_image_events (o : Nat → ImgOutcome) (i : Nat) :
    state_writes (image_events o i) = [] := by
  rcases h : o i with _ | m
  · simp only [image_events, h]; rfl
  · cases m <;> simp only [image_events, h] <;> rfl

theorem state_writes_chunk_events (o : Nat → ImgOutcome) (c : List Nat) :
    state_writes (chunk_events o c) = [] := by
  induction c with
  | nil => rfl
  | cons i c ih =>
      simp only [chunk_events, List.map_cons, List.flatten_cons] at *
      rw [state_writes_append, state_writes_image_events, ih]
      rfl

theorem state_writes_stream_loop (o : Nat → ImgOutcome) (st : Nat → JobStatus)
    (cs : List (List Nat)) (k : Nat) : state_writes (stream_loop o st cs k) = [] := by
  induction cs generalizing k with
  | nil => rfl
  | cons c cs ih =>
      unfold stream_loop
      split
      · rfl
      · rw [state_writes_append, state_writes_chunk_events, ih]; rfl

theorem process_batch_events_of_ne_nil (images : List Nat) (h : images ≠ [])
    (o : Nat → ImgOutcome) (st : Nat → JobStatus) :
    process_batch_events .PENDING images o st =
      .setState .PROCESSING :: (stream_loop o st (chunked images) 0 ++ [.setState .COMMITTED]) := by
  unfold process_batch_events
  simp [h]

theorem state_writes_process_batch (images : List Nat) (h : images ≠ [])
    (o : Nat → ImgOutcome) (st : Nat → JobStatus) :
    state_writes (process_batch_events .PENDING images o st) =
      [.PROCESSING, .COMMITTED] := by
  rw [process_batch_events_of_ne_nil images h]
  show BatchState.PROCESSING :: state_writes (stream_loop o st (chunked images) 0 ++ [.setState .COMMITTED]) = _
  rw [state_writes_append, state_writes_stream_loop]
  rfl

/-- Claim C1, counterexample: on a one-image batch the stream engine
persists PENDING → PROCESSING → COMMITTED; the step
PROCESSING → COMMITTED is not a move to the immediate successor
(COMMITTING is skipped), so the persisted sequence is not a prefix of the
chain advanced one state at a time. -/
theorem c1_counterexample :
    state_writes (process_batch_events .PENDING [0] (fun _ => .analyzed false) (fun _ => .running))
        = [.PROCESSING, .COMMITTED] ∧
    ¬ List.Chain' ImmediateSuccessor
        (BatchState.PENDING ::
          state_writes (process_batch_events .PENDING [0] (fun _ => .analyzed false)
            (fun _ => .running))) := by
  have h := state_writes_process_batch [0] (by decide) (fun _ => .analyzed false) (fun _ => .running)
  refine ⟨h, ?_⟩
  rw [h]
  intro hchain
  have := (List.chain'_cons.mp (List.chain'_cons.mp hchain).2).1
  exact absurd this (by decide)

/-- Claim C1, amended: every persisted batch-state write of the modelled
operations either moves strictly forward along the chain
PENDING → PROCESSING → COMMITTING → COMMITTED (the stream engine skips
COMMITTING, writing PROCESSING then COMMITTED, and stamps an empty batch
COMMITTED from PENDING) or is the crash/error recovery reset
PROCESSING → PENDING; a COMMITTED batch is never written again, and the
stream engine never writes COMMITTING. -/
theorem c1_amended :
    (∀ (images : List Nat) (o : Nat → ImgOutcome) (st : Nat → JobStatus),
      List.Chain' LegalWrite
        (BatchState.PENDING :: state_writes (process_batch_events .PENDING images o st))) ∧
    (∀ (images : List Nat) (o : Nat → ImgOutcome) (st : Nat → JobStatus),
      process_batch_events .COMMITTED images o st = []) ∧
    (∀ s s', resume_write s = some s' → LegalWrite s s') ∧
    LegalWrite .PROCESSING worker_error_reset ∧
    (∀ (images : List Nat) (o : Nat → ImgOutcome) (st : Nat → JobStatus),
      BatchState.COMMITTING ∉
        state_writes (process_batch_events .PENDING images o st)) := by
  refine ⟨?_, ?_, ?_, Or.inr ⟨rfl, rfl⟩, ?_⟩
  · intro images o st
    by_cases h : images = []
    · subst h
      have he : process_batch_events .PENDING [] o st = [.setState .COMMITTED] := rfl
      rw [he]
      exact List.chain'_cons.mpr ⟨by decide, List.chain'_singleton _⟩
    · rw [state_writes_process_batch images h]
      exact List.chain'_cons.mpr ⟨by decide,
        List.chain'_cons.mpr ⟨by decide, List.chain'_singleton _⟩⟩
  · intro images o st
    simp [process_batch_events]
  · intro s s' h
    cases s <;> simp [resume_write] at h <;> subst h <;> decide
  · intro images o st
    by_cases h : images = []
    · subst h
      have he : process_batch_events .PENDING [] o st = [.setState .COMMITTED] := rfl
      rw [he]
      decide
    · rw [state_writes_process_batch images h]
      decide

/-- Witness for `c1_amended`: the resume transition of a batch found in
PROCESSING is the legal reset to PENDING. -/
theorem c1_amended_witness :
    resume_write .PROCESSING = some .PENDING ∧ LegalWrite .PROCESSING .PENDING :=
  ⟨rfl, c1_amended.2.2.1 .PROCESSING .PENDING rfl⟩

/-! ### C6 lemmas -/

theorem analyzed_ids_append (a b : List BatchEv) :
    analyzed_ids (a ++ b) = analyzed_ids a ++ analyzed_ids b := by
  simp [analyzed_ids, List.filterMap_append]

theorem analyzed_ids_image_events (o : Nat → ImgOutcome) (i : Nat) :
    analyzed_ids (image_events o i) = [i] := by
  rcases h : o i with _ | m
  · simp only [image_events, h]; rfl
  · cases m <;> simp only [image_events, h] <;> rfl

theorem analyzed_ids_chunk_events (o : Nat → ImgOutcome) (c : List Nat) :
    analyzed_ids (chunk_events o c) = c := by
  induction c with
  | nil => rfl
  | cons i c ih =>
      simp only [chunk_events, List.map_cons, List.flatten_cons] at *
      rw [analyzed_ids_append, analyzed_ids_image_events, ih]
      rfl

theorem chunked_take_flatten (j : Nat) :
    ∀ l : List Nat, ((chunked l).take j).flatten = l.take (TERMINATE_CHUNK * j) := by
  induction j with
  | zero => intro l; simp
  | succ j ih =>
      intro l
      rw [chunked]
      split
      · rename_i h
        simp [h]
      · rename_i h
        rw [List.take_succ_cons, List.flatten_cons, ih (l.drop TERMINATE_CHUNK)]
        rw [Nat.mul_succ, Nat.add_comm (TERMINATE_CHUNK * j) TERMINATE_CHUNK, List.take_add]

theorem analyzed_stream_loop_sub (o : Nat → ImgOutcome) (st : Nat → JobStatus) :
    ∀ (cs : List (List Nat)) (k0 j : Nat), st (k0 + j) = .terminating →
      ∀ i ∈ analyzed_ids (stream_loop o st cs k0), i ∈ (cs.take j).flatten := by
  intro cs
  induction cs with
  | nil => intro k0 j _ i hi; simp [stream_loop, analyzed_ids] at hi
  | cons c cs ih =>
      intro k0 j hterm i hi
      unfold stream_loop at hi
      by_cases hs : st k0 = .terminating
      · simp [hs, analyzed_ids] at hi
      · rw [if_neg hs] at hi
        cases j with
        | zero => exact absurd hterm hs
        | succ j =>
            rw [analyzed_ids_append, List.mem_append, analyzed_ids_chunk_events] at hi
            rw [List.take_succ_cons, List.flatten_cons, List.mem_append]
            rcases hi with hi | hi
            · exact Or.inl hi
            · refine Or.inr (ih (k0 + 1) j ?_ i hi)
              have : k0 + 1 + j = k0 + (j + 1) := by omega
              rw [this]
              exact hterm

theorem analyze_mem_image_events (o : Nat → ImgOutcome) (i j : Nat) :
    BatchEv.analyze i ∈ image_events o j → i = j := by
  intro h
  rcases hj : o j with _ | m
  · simpa [image_events, hj] using h
  · cases m <;> simpa [image_events, hj] using h

theorem self_analyze_mem_image_events (o : Nat → ImgOutcome) (i : Nat) :
    BatchEv.analyze i ∈ image_events o i := by
  rcases h : o i with _ | m
  · simp [image_events, h]
  · cases m <;> simp [image_events, h]

theorem commit_mem_chunk_events (o : Nat → ImgOutcome) (c : List Nat) (i : Nat)
    (hi : BatchEv.analyze i ∈ chunk_events o c) (ho : o i = .analyzed true) :
    BatchEv.commit i ∈ chunk_events o c := by
  induction c with
  | nil => simp [chunk_events] at hi
  | cons j c ih =>
      simp only [chunk_events, List.map_cons, List.flatten_cons, List.mem_append] at hi ⊢
      rcases hi with hi | hi
      · left
        have := analyze_mem_image_events o i j hi
        subst this
        simp [image_events, ho]
      · exact Or.inr (ih hi)

theorem commit_mem_stream_loop (o : Nat → ImgOutcome) (st : Nat → JobStatus)
    (cs : List (List Nat)) (k : Nat) (i : Nat)
    (hi : BatchEv.analyze i ∈ stream_loop o st cs k) (ho : o i = .analyzed true) :
    BatchEv.commit i ∈ stream_loop o st cs k := by
  induction cs generalizing k with
  | nil => simp [stream_loop] at hi
  | cons c cs ih =>
      unfold stream_loop at hi ⊢
      split at hi
      · simp at hi
      · rename_i hs
        rw [if_neg hs]
        rw [List.mem_append] at hi ⊢
        rcases hi with hi | hi
        · exact Or.inl (commit_mem_chunk_events o c i hi ho)
        · exact Or.inr (ih (k + 1) hi)

theorem flatten_chunked (n : Nat) :
    ∀ l : List Nat, l.length ≤ n → (chunked l).flatten = l := by
  induction n with
  | zero =>
      intro l hl
      have : l = [] := List.length_eq_zero.mp (Nat.le_zero.mp hl)
      subst this
      rw [chunked]
      rfl
  | succ n ih =>
      intro l hl
      rw [chunked]
      split
      · rename_i h; simp [h]
      · rename_i h
        rw [List.flatten_cons, ih (l.drop TERMINATE_CHUNK) ?_, List.take_append_drop]
        have hpos : 0 < l.length := List.length_pos.mpr h
        simp only [List.length_drop, TERMINATE_CHUNK]
        omega

theorem analyze_mem_stream_loop_all (o : Nat → ImgOutcome) (st : Nat → JobStatus)
    (hst : ∀ k, st k ≠ .terminating) :
    ∀ (cs : List (List Nat)) (k : Nat) (c : List Nat), c ∈ cs → ∀ i ∈ c,
      BatchEv.analyze i ∈ stream_loop o st cs k := by
  intro cs
  induction cs with
  | nil => intro k c hc; simp at hc
  | cons c' cs ih =>
      intro k c hc i hi
      unfold stream_loop
      rw [if_neg (hst k), List.mem_append]
      rcases List.mem_cons.mp hc with hc | hc
      · subst hc
        left
        exact List.mem_flatten.mpr ⟨image_events o i, List.mem_map.mpr ⟨i, hi, rfl⟩,
          self_analyze_mem_image_events o i⟩
      · exact Or.inr (ih (k + 1) c hc i hi)

/-- Claim C6, counterexample: a one-image batch whose job status already
reads `terminating` at the first poll is stamped COMMITTED although its
single (matched) image was never analyzed, never committed, and never
classified no-match — refuting "COMMITTED is stamped only after the last
image of the batch either committed or was classified as no-match". -/
theorem c6_counterexample :
    process_batch_events .PENDING [0] (fun _ => .analyzed true) (fun _ => .terminating)
        = [.setState .PROCESSING, .setState .COMMITTED] ∧
    ¬ CommittedOnlyAfterAllImages
        (process_batch_events .PENDING [0] (fun _ => .analyzed true) (fun _ => .terminating))
        [0] (fun _ => .analyzed true) := by
  have h : process_batch_events .PENDING [0] (fun _ => .analyzed true) (fun _ => .terminating)
      = [.setState .PROCESSING, .setState .COMMITTED] := by
    rw [process_batch_events_of_ne_nil [0] (by decide)]
    rcases hc : chunked [0] with _ | ⟨c, cs⟩
    · rfl
    · rfl
  refine ⟨h, ?_⟩
  rw [h]
  intro hc
  rcases hc (by decide) 0 (by decide) with hmem | ⟨hmem, _⟩
  · simp at hmem
  · simp at hmem

/-- Claim C6, amended: in the stream engine, (i) the only persisted batch
states of a run are the initial PROCESSING write and the final COMMITTED
write — the batch stays in PROCESSING while any image is in flight and the
COMMITTED stamp is the last event; (ii) once a `terminating` status is
polled at chunk boundary k, only images of the first k chunks
(TERMINATE_CHUNK·k images) are ever analyzed; (iii) every analyzed image
with matches has its commit run to completion (its commit event is in the
trace, before the final stamp); (iv) when no poll returns `terminating`,
every image of the batch is analyzed.  COMMITTED is thus stamped after
every *analyzed* image either committed or was classified no-match — but
under termination the remaining images are skipped entirely while the
batch is still stamped COMMITTED (see the counterexample). -/
theorem c6_amended (images : List Nat) (o : Nat → ImgOutcome) (st : Nat → JobStatus)
    (hne : images ≠ []) :
    (∃ mid, process_batch_events .PENDING images o st =
        .setState .PROCESSING :: (mid ++ [.setState .COMMITTED]) ∧ state_writes mid = []) ∧
    (∀ k, st k = .terminating →
      ∀ i ∈ analyzed_ids (process_batch_events .PENDING images o st),
        i ∈ images.take (TERMINATE_CHUNK * k)) ∧
    (∀ i, BatchEv.analyze i ∈ process_batch_events .PENDING images o st →
      o i = .analyzed true →
      BatchEv.commit i ∈ .setState .PROCESSING ::
        (stream_loop o st (chunked images) 0 ++ [.setState .COMMITTED])) ∧
    ((∀ k, st k ≠ .terminating) →
      ∀ i ∈ images, BatchEv.analyze i ∈ process_batch_events .PENDING images o st) := by
  have hstruct := process_batch_events_of_ne_nil images hne o st
  refine ⟨⟨stream_loop o st (chunked images) 0, hstruct, state_writes_stream_loop o st _ 0⟩,
    ?_, ?_, ?_⟩
  · intro k hk i hi
    rw [hstruct] at hi
    have hi' : i ∈ analyzed_ids (stream_loop o st (chunked images) 0) := by
      have : analyzed_ids (BatchEv.setState .PROCESSING ::
          (stream_loop o st (chunked images) 0 ++ [.setState .COMMITTED]))
          = analyzed_ids (stream_loop o st (chunked images) 0) := by
        show analyzed_ids (stream_loop o st (chunked images) 0 ++ [.setState .COMMITTED]) = _
        rw [analyzed_ids_append]
        simp [analyzed_ids]
      rw [this] at hi
      exact hi
    have := analyzed_stream_loop_sub o st (chunked images) 0 k (by simpa using hk) i hi'
    rwa [chunked_take_flatten] at this
  · intro i hi ho
    rw [hstruct] at hi
    rcases List.mem_cons.mp hi with hi | hi
    · exact absurd hi (by simp)
    · rcases List.mem_append.mp hi with hi | hi
      · exact List.mem_cons_of_mem _ (List.mem_append_left _
          (commit_mem_stream_loop o st (chunked images) 0 i hi ho))
      · simp at hi
  · intro hst i hi
    rw [hstruct]
    have hflat : (chunked images).flatten = images := flatten_chunked images.length images le_rfl
    have : i ∈ (chunked images).flatten := by rw [hflat]; exact hi
    rcases List.mem_flatten.mp this with ⟨c, hc, hic⟩
    exact List.mem_cons_of_mem _ (List.mem_append_left _
      (analyze_mem_stream_loop_all o st hst (chunked images) 0 c hc i hic))

/-- Witness for `c6_amended`: on a concrete one-image batch with no
termination, the image is analyzed and, being matched, committed. -/
theorem c6_amended_witness :
    ([5] : List Nat) ≠ [] ∧
    BatchEv.analyze 5 ∈
      process_batch_events .PENDING [5] (fun _ => .analyzed true) (fun _ => .running) ∧
    BatchEv.commit 5 ∈ BatchEv.setState .PROCESSING ::
      (stream_loop (fun _ => .analyzed true) (fun _ => .running) (chunked [5]) 0 ++
        [.setState .COMMITTED]) := by
  have h := c6_amended [5] (fun _ => .analyzed true) (fun _ => .running) (by decide)
  have ha : BatchEv.analyze 5 ∈
      process_batch_events .PENDING [5] (fun _ => .analyzed true) (fun _ => .running) :=
    h.2.2.2 (fun _ hcon => by cases hcon) 5 (by decide)
  exact ⟨by decide, ha, h.2.2.1 5 ha rfl⟩

/-! ### C7 (group-mode commit) -/

/-- Claim C7 (code_bug evaluation): `route_image_to_group` is not a method
of `RoutingEngine`, so in group mode `_commit_image` raises
`AttributeError`, writes nothing (the final filesystem is empty — in
particular no file under `output_root`), and only the staged artifact is
cleaned up; an image matching only a strict subset of the selected persons
has its matched ids cleared and is never committed at all. -/
theorem c7_group_mode_commit_fails :
    ("route_image_to_group" ∉ routing_engine_methods) ∧
    (commit_image ⟨[⟨1, "Alice", "alice"⟩, ⟨2, "Bob", "bob"⟩], [], [], 0, 0⟩ [] ⟨[], 0⟩
        true (some "wedding") 1 7 "g" "0123456789abcdef" "jpegbytes" ["out"]
        (fun _ => false) [1, 2]).1
      = Except.error (PyError.attributeError "route_image_to_group") ∧
    (commit_image ⟨[⟨1, "Alice", "alice"⟩, ⟨2, "Bob", "bob"⟩], [], [], 0, 0⟩ [] ⟨[], 0⟩
        true (some "wedding") 1 7 "g" "0123456789abcdef" "jpegbytes" ["out"]
        (fun _ => false) [1, 2]).2.2 = [] ∧
    group_filter_matched_ids true (some [1, 2]) [1] = [] := by
  refine ⟨by decide, rfl, ?_, rfl⟩
  rfl

/-! ### C8 (discover_images keyword mismatch) -/

/-- Claim C8 (code_bug evaluation): `BatchEngine.discover_images` passes
the keyword argument `selected_image_paths` to `IngestEngine.run`, whose
signature accepts only `compute_hashes` and `force_rediscover`; the call
raises `TypeError` before any discovery, cataloging or slicing happens. -/
theorem c8_discover_images_type_error :
    discover_images_call = Except.error (PyError.typeError "selected_image_paths") := by
  rfl

/-! ### C9 (compression write policy) -/

/-- Claim C9, counterexample: at the concrete destination
out/alice/a__h.jpg both compression entry points emit a direct write of
the destination and no write of `dst.tmp` and no rename — the
temp-write-then-rename discipline is absent from compression. -/
theorem c9_counterexample :
    ¬ WritesViaTempRename (compress_events ["out", "alice", "a__h.jpg"] "c")
        ["out", "alice", "a__h.jpg"] ∧
    ¬ WritesViaTempRename (convert_for_delivery_events ["out", "alice", "a__h.jpg"] "c")
        ["out", "alice", "a__h.jpg"] ∧
    FsEv.write ["out", "alice", "a__h.jpg"] "c" ∈
      compress_events ["out", "alice", "a__h.jpg"] "c" ∧
    FsEv.write ["out", "alice", "a__h.jpg"] "c" ∈
      convert_for_delivery_events ["out", "alice", "a__h.jpg"] "c" := by
  refine ⟨fun h => ?_, fun h => ?_, by decide, by decide⟩
  · simpa [compress_events] using h.2
  · simpa [convert_for_delivery_events] using h.2

theorem route_to_person_write_evs (r : Registry) (fs : FS) (log : CommitLog)
    (b im pid : Nat) (staged : FPath) (fn : String) (root : FPath) (person : Person)
    (c : String)
    (hfind : r.persons.find? (fun p => p.pid = pid) = some person)
    (hlog : check_output_exists_in_log log (root ++ [person.folderRel] ++ [fn]) = false)
    (hex : fsExists fs (root ++ [person.folderRel] ++ [fn]) = false)
    (hstaged : fsLookup fs staged = some c) :
    (route_to_person r fs log b im pid staged fn root false).2.2 =
      [FsEv.mkdir (root ++ [person.folderRel]),
       FsEv.write (root ++ [person.folderRel] ++ [tmpName fn]) c,
       FsEv.rename (root ++ [person.folderRel] ++ [tmpName fn])
         (root ++ [person.folderRel] ++ [fn])] := by
  unfold route_to_person
  rw [hfind]
  simp only [List.append_assoc, List.singleton_append] at hlog hex
  simp only [hstaged]
  by_cases hc : c = "" <;> simp [hc, hlog, hex]

/-- Claim C9, amended: the compression entry points materialize their
output by a single direct write of the destination path (no rename is ever
emitted); the temp-write-then-rename discipline is instead applied by the
routing fan-out, whose write path copies the staged artifact to `dst.tmp`
and renames it onto `dst`. -/
theorem c9_amended :
    (∀ (dst : FPath) (c : String) (s d : FPath),
      FsEv.rename s d ∉ compress_events dst c ∧
      compress_events dst c = [FsEv.mkdir dst.dropLast, FsEv.write dst c]) ∧
    (∀ (dst : FPath) (c : String) (s d : FPath),
      FsEv.rename s d ∉ convert_for_delivery_events dst c ∧
      convert_for_delivery_events dst c = [FsEv.mkdir dst.dropLast, FsEv.write dst c]) ∧
    (∀ (r : Registry) (fs : FS) (log : CommitLog) (b im pid : Nat) (staged : FPath)
        (fn : String) (root : FPath) (person : Person) (c : String),
      r.persons.find? (fun p => p.pid = pid) = some person →
      check_output_exists_in_log log (root ++ [person.folderRel] ++ [fn]) = false →
      fsExists fs (root ++ [person.folderRel] ++ [fn]) = false →
      fsLookup fs staged = some c →
      WritesViaTempRename
        (route_to_person r fs log b im pid staged fn root false).2.2
        (root ++ [person.folderRel] ++ [fn])) := by
  refine ⟨?_, ?_, ?_⟩
  · intro dst c s d
    exact ⟨by simp [compress_events], rfl⟩
  · intro dst c s d
    exact ⟨by simp [convert_for_delivery_events], rfl⟩
  · intro r fs log b im pid staged fn root person c hfind hlog hex hstaged
    have htmp : tmpPathOf (root ++ [person.folderRel] ++ [fn])
        = (root ++ [person.folderRel]) ++ [tmpName fn] := by
      unfold tmpPathOf
      rw [List.dropLast_concat, List.getLastD_concat]
    rw [WritesViaTempRename,
      route_to_person_write_evs r fs log b im pid staged fn root person c hfind hlog hex hstaged,
      htmp]
    exact ⟨⟨c, by simp⟩, by simp⟩

/-- Witness for `c9_amended`: a concrete fan-out write path satisfies the
temp-write-then-rename discipline, while compression of the same
destination emits no rename. -/
theorem c9_amended_witness :
    FsEv.rename (tmpPathOf ["out", "alice", "x__h.jpg"]) ["out", "alice", "x__h.jpg"] ∉
      compress_events ["out", "alice", "x__h.jpg"] "c" ∧
    WritesViaTempRename
      (route_to_person ⟨[⟨1, "Alice", "alice"⟩], [], [], 0, 0⟩
        [(["hot_storage", "staging", "x__h.jpg"], "c")] ⟨[], 0⟩
        1 7 1 ["hot_storage", "staging", "x__h.jpg"] "x__h.jpg" ["out"] false).2.2
      (["out"] ++ ["alice"] ++ ["x__h.jpg"]) := by
  refine ⟨(c9_amended.1 ["out", "alice", "x__h.jpg"] "c" _ _).1, ?_⟩
  exact c9_amended.2.2 ⟨[⟨1, "Alice", "alice"⟩], [], [], 0, 0⟩
    [(["hot_storage", "staging", "x__h.jpg"], "c")] ⟨[], 0⟩ 1 7 1
    ["hot_storage", "staging", "x__h.jpg"] "x__h.jpg" ["out"] ⟨1, "Alice", "alice"⟩ "c"
    rfl rfl rfl rfl

/-! ### C5 / C10 (matcher) -/

theorem select_best_spec (u : Vec) :
    ∀ (l : List CentEntry) (acc : ℚ × CentEntry),
      acc.1 = distSq u acc.2.centroid →
      ((acc.2 :: l).map (fun e => e.pid)).Pairwise (· < ·) →
      (select_best u acc l).1 = distSq u (select_best u acc l).2.centroid ∧
      (select_best u acc l = acc ∨
        ((select_best u acc l).2 ∈ l ∧ (select_best u acc l).1 < acc.1)) ∧
      (select_best u acc l).1 ≤ acc.1 ∧
      (∀ e ∈ l, (select_best u acc l).1 ≤ distSq u e.centroid) ∧
      (∀ e ∈ acc.2 :: l, distSq u e.centroid = (select_best u acc l).1 →
        (select_best u acc l).2.pid ≤ e.pid) := by
  intro l
  induction l with
  | nil =>
      intro acc hacc _
      refine ⟨hacc, Or.inl rfl, le_refl _, ?_, ?_⟩
      · intro e he; simp at he
      · intro e he hd
        rcases List.mem_singleton.mp he with rfl
        exact le_refl _
  | cons x xs ih =>
      intro acc hacc hp
      have hpid_acc_x : acc.2.pid < x.pid := by
        have := (List.pairwise_cons.mp hp).1
        exact this x.pid (by simp)
      have hp_tail : ((x :: xs).map (fun e => e.pid)).Pairwise (· < ·) :=
        (List.pairwise_cons.mp hp).2
      have hp_skip : ((acc.2 :: xs).map (fun e => e.pid)).Pairwise (· < ·) := by
        rw [List.map_cons, List.pairwise_cons]
        refine ⟨?_, (List.pairwise_cons.mp hp_tail).2⟩
        intro b hb
        exact (List.pairwise_cons.mp hp).1 b (by simp at hb ⊢; exact Or.inr hb)
      rw [select_best]
      by_cases hd : distSq u x.centroid < acc.1
      · rw [if_pos hd]
        obtain ⟨i1, i2, i3, i4, i5⟩ := ih (distSq u x.centroid, x) rfl hp_tail
        refine ⟨i1, ?_, ?_, ?_, ?_⟩
        · right
          rcases i2 with h | ⟨hmem, hlt⟩
          · exact ⟨by rw [h]; exact List.mem_cons_self x xs, by rw [h]; exact hd⟩
          · exact ⟨List.mem_cons_of_mem x hmem, lt_trans hlt hd⟩
        · exact le_of_lt (lt_of_le_of_lt i3 hd)
        · intro e he
          rcases List.mem_cons.mp he with rfl | he
          · exact i3
          · exact i4 e he
        · intro e he hde
          rcases List.mem_cons.mp he with rfl | he
          · exfalso
            have hlt : (select_best u (distSq u x.centroid, x) xs).1 < acc.1 :=
              lt_of_le_of_lt i3 hd
            rw [← hacc] at hde
            rw [hde] at hlt
            exact lt_irrefl _ hlt
          · exact i5 e he hde
      · rw [if_neg hd]
        have hdge : acc.1 ≤ distSq u x.centroid := le_of_not_lt hd
        obtain ⟨i1, i2, i3, i4, i5⟩ := ih acc hacc hp_skip
        refine ⟨i1, ?_, i3, ?_, ?_⟩
        · rcases i2 with h | ⟨hmem, hlt⟩
          · exact Or.inl h
          · exact Or.inr ⟨List.mem_cons_of_mem x hmem, hlt⟩
        · intro e he
          rcases List.mem_cons.mp he with rfl | he
          · exact le_trans i3 hdge
          · exact i4 e he
        · intro e he hde
          rcases List.mem_cons.mp he with rfl | he'
          · exact i5 acc.2 (List.mem_cons_self _ _) hde
          · rcases List.mem_cons.mp he' with rfl | he''
            · have heq : (select_best u acc xs).1 = acc.1 := by
                refine le_antisymm i3 ?_
                rw [hde] at hdge
                exact hdge
              rcases i2 with hcase | ⟨_, hlt⟩
              · rw [hcase]
                exact le_of_lt hpid_acc_x
              · exact absurd heq (ne_of_lt hlt)
            · exact i5 e (List.mem_cons.mpr (Or.inr he'')) hde

/-- Claim C5: `match` normalizes the input, measures the Euclidean distance
to every cached centroid (here: the squared distance `distSq`, against the
squared thresholds (0.80)² = 16/25 and (1.00)² = 1, an equivalent
comparison since both sides are nonnegative), selects the minimal distance
with ties broken toward the smallest person_id (the cache is in ascending
person_id order and the stable sort keeps the first minimum), and
classifies strict / loose / unknown by the two thresholds. -/
theorem c5_match_argmin_thresholds (m : Matcher) (r : Registry) (v : Vec) (learn : Bool)
    (e0 : CentEntry) (es : List CentEntry)
    (hcache : m.centroids_cache = some (e0 :: es))
    (hsorted : ((e0 :: es).map (fun e => e.pid)).Pairwise (· < ·)) :
    ∃ dmin : ℚ,
      (match_embedding m r v learn).1.distance = (dmin : WithTop ℚ) ∧
      (∀ e ∈ e0 :: es, dmin ≤ distSq (normalize_embedding v) e.centroid) ∧
      (∃ e ∈ e0 :: es, distSq (normalize_embedding v) e.centroid = dmin ∧
        (dmin ≤ threshold_loose_sq → (match_embedding m r v learn).1.person_id = some e.pid) ∧
        (∀ e' ∈ e0 :: es, distSq (normalize_embedding v) e'.centroid = dmin →
          e.pid ≤ e'.pid)) ∧
      (match_embedding m r v learn).1.match_type =
        (if dmin ≤ threshold_strict_sq then .strict
         else if dmin ≤ threshold_loose_sq then .loose else .unknown) := by
  obtain ⟨s1, s2, s3, s4, s5⟩ := select_best_spec (normalize_embedding v) es
    (distSq (normalize_embedding v) e0.centroid, e0) rfl hsorted
  have hmem : (select_best (normalize_embedding v)
      (distSq (normalize_embedding v) e0.centroid, e0) es).2 ∈ e0 :: es := by
    rcases s2 with h | ⟨h, _⟩
    · rw [h]; exact List.mem_cons_self _ _
    · exact List.mem_cons_of_mem _ h
  have hmin : ∀ e ∈ e0 :: es,
      (select_best (normalize_embedding v)
        (distSq (normalize_embedding v) e0.centroid, e0) es).1 ≤
          distSq (normalize_embedding v) e.centroid := by
    intro e he
    rcases List.mem_cons.mp he with rfl | he
    · exact s3
    · exact s4 e he
  have hfst : (match_embedding m r v learn).1 =
      (if (select_best (normalize_embedding v)
            (distSq (normalize_embedding v) e0.centroid, e0) es).1 ≤ threshold_strict_sq then
        (⟨some (select_best (normalize_embedding v)
            (distSq (normalize_embedding v) e0.centroid, e0) es).2.pid,
          some (select_best (normalize_embedding v)
            (distSq (normalize_embedding v) e0.centroid, e0) es).2.name,
          some (select_best (normalize_embedding v)
            (distSq (normalize_embedding v) e0.centroid, e0) es).2.folderRel,
          ((select_best (normalize_embedding v)
            (distSq (normalize_embedding v) e0.centroid, e0) es).1 : ℚ),
          .strict⟩ : MatchResult)
      else if (select_best (normalize_embedding v)
            (distSq (normalize_embedding v) e0.centroid, e0) es).1 ≤ threshold_loose_sq then
        ⟨some (select_best (normalize_embedding v)
            (distSq (normalize_embedding v) e0.centroid, e0) es).2.pid,
          some (select_best (normalize_embedding v)
            (distSq (normalize_embedding v) e0.centroid, e0) es).2.name,
          some (select_best (normalize_embedding v)
            (distSq (normalize_embedding v) e0.centroid, e0) es).2.folderRel,
          ((select_best (normalize_embedding v)
            (distSq (normalize_embedding v) e0.centroid, e0) es).1 : ℚ),
          .loose⟩
      else
        ⟨none, none, none,
          ((select_best (normalize_embedding v)
            (distSq (normalize_embedding v) e0.centroid, e0) es).1 : ℚ),
          .unknown⟩) := by
    simp only [match_embedding, hcache, Option.getD_some]
    split_ifs <;> rfl
  rw [hfst]
  split_ifs with h1 h2
  · exact ⟨_, rfl, hmin, ⟨_, hmem, s1.symm, fun _ => rfl, fun e' he' hd => s5 e' he' hd⟩,
      by rw [if_pos h1]⟩
  · exact ⟨_, rfl, hmin, ⟨_, hmem, s1.symm, fun _ => rfl, fun e' he' hd => s5 e' he' hd⟩,
      by rw [if_neg h1, if_pos h2]⟩
  · exact ⟨_, rfl, hmin, ⟨_, hmem, s1.symm, fun hld => absurd hld h2,
      fun e' he' hd => s5 e' he' hd⟩, by rw [if_neg h1, if_neg h2]⟩

/-- Witness for `c5_match_argmin_thresholds`: two equidistant centroids;
the cache is in ascending person_id order and the theorem applies. -/
theorem c5_match_argmin_thresholds_witness :
    (Matcher.mk none (some [⟨1, "a", "fa", [1, 0]⟩, ⟨2, "b", "fb", [1, 0]⟩])).centroids_cache
        = some (⟨1, "a", "fa", [1, 0]⟩ :: [⟨2, "b", "fb", [1, 0]⟩]) ∧
    (([(⟨1, "a", "fa", [1, 0]⟩ : CentEntry), ⟨2, "b", "fb", [1, 0]⟩]).map
        (fun e => e.pid)).Pairwise (· < ·) ∧
    ∃ dmin : ℚ,
      (match_embedding (Matcher.mk none (some [⟨1, "a", "fa", [1, 0]⟩, ⟨2, "b", "fb", [1, 0]⟩]))
          ⟨[], [], [], 0, 0⟩ [1, 0] false).1.distance = (dmin : WithTop ℚ) ∧
      (∀ e ∈ (⟨1, "a", "fa", [1, 0]⟩ : CentEntry) :: [⟨2, "b", "fb", [1, 0]⟩],
        dmin ≤ distSq (normalize_embedding [1, 0]) e.centroid) ∧
      (∃ e ∈ (⟨1, "a", "fa", [1, 0]⟩ : CentEntry) :: [⟨2, "b", "fb", [1, 0]⟩],
        distSq (normalize_embedding [1, 0]) e.centroid = dmin ∧
        (dmin ≤ threshold_loose_sq →
          (match_embedding (Matcher.mk none
              (some [⟨1, "a", "fa", [1, 0]⟩, ⟨2, "b", "fb", [1, 0]⟩]))
            ⟨[], [], [], 0, 0⟩ [1, 0] false).1.person_id = some e.pid) ∧
        (∀ e' ∈ (⟨1, "a", "fa", [1, 0]⟩ : CentEntry) :: [⟨2, "b", "fb", [1, 0]⟩],
          distSq (normalize_embedding [1, 0]) e'.centroid = dmin → e.pid ≤ e'.pid)) ∧
      (match_embedding (Matcher.mk none (some [⟨1, "a", "fa", [1, 0]⟩, ⟨2, "b", "fb", [1, 0]⟩]))
          ⟨[], [], [], 0, 0⟩ [1, 0] false).1.match_type =
        (if dmin ≤ threshold_strict_sq then .strict
         else if dmin ≤ threshold_loose_sq then .loose else .unknown) :=
  ⟨rfl, by decide,
    c5_match_argmin_thresholds (Matcher.mk none
        (some [⟨1, "a", "fa", [1, 0]⟩, ⟨2, "b", "fb", [1, 0]⟩]))
      ⟨[], [], [], 0, 0⟩ [1, 0] false ⟨1, "a", "fa", [1, 0]⟩ [⟨2, "b", "fb", [1, 0]⟩]
      rfl (by decide)⟩

/-- Claim C10: with no matchable centroids (empty effective cache — no
persons, no embeddings, or an empty selected-person filter result) `match`
returns `unknown` with `person_id = None` and infinite distance, performs
no learning, and leaves the registry (database) unchanged. -/
theorem c10_match_empty_registry (m0 : Matcher) (r : Registry) (v : Vec) (learn : Bool)
    (hempty : (match m0.centroids_cache with
      | none => filter_selected m0.selected_person_ids (get_all_centroids r)
      | some c => c) = []) :
    (match_embedding m0 r v learn).1 = ⟨none, none, none, ⊤, .unknown⟩ ∧
    (match_embedding m0 r v learn).2.2 = r := by
  rcases hc : m0.centroids_cache with _ | c
  · rw [hc] at hempty
    have hempty' : filter_selected m0.selected_person_ids (get_all_centroids r) = [] := hempty
    constructor <;>
      simp only [match_embedding, hc, refresh_centroids, hempty', Option.getD_some]
  · rw [hc] at hempty
    have hempty' : c = [] := hempty
    subst hempty'
    constructor <;> simp only [match_embedding, hc, Option.getD_some]

/-- Witness for `c10_match_empty_registry`: an empty registry and a fresh
matcher with no cache. -/
theorem c10_match_empty_registry_witness :
    (match (Matcher.mk none none).centroids_cache with
      | none => filter_selected (Matcher.mk none none).selected_person_ids
          (get_all_centroids ⟨[], [], [], 0, 0⟩)
      | some c => c) = [] ∧
    (match_embedding (Matcher.mk none none) ⟨[], [], [], 0, 0⟩ [3, 4] true).1
      = ⟨none, none, none, ⊤, .unknown⟩ ∧
    (match_embedding (Matcher.mk none none) ⟨[], [], [], 0, 0⟩ [3, 4] true).2.2
      = ⟨[], [], [], 0, 0⟩ :=
  ⟨rfl, (c10_match_empty_registry (Matcher.mk none none) ⟨[], [], [], 0, 0⟩ [3, 4] true rfl).1,
    (c10_match_empty_registry (Matcher.mk none none) ⟨[], [], [], 0, 0⟩ [3, 4] true rfl).2⟩

/-! ### Filesystem lemmas -/

theorem fsLookup_fsRemove_self (fs : FS) (p : FPath) : fsLookup (fsRemove fs p) p = none := by
  have h : (fs.filter (fun e => !(e.1 = p))).find? (fun e => e.1 = p) = none := by
    rw [List.find?_eq_none]
    intro x hx
    have := (List.mem_filter.mp hx).2
    simpa using this
  simp [fsLookup, fsRemove, h]

theorem find?_fsRemove_ne (fs : FS) (p q : FPath) (h : q ≠ p) :
    (fsRemove fs p).find? (fun e => e.1 = q) = fs.find? (fun e => e.1 = q) := by
  unfold fsRemove
  induction fs with
  | nil => rfl
  | cons e fs ih =>
      rw [List.filter_cons]
      by_cases he : e.1 = p
      · rw [if_neg (by simp [he]), ih,
          List.find?_cons_of_neg _ (by simp [he]; exact fun hh => h hh.symm)]
      · rw [if_pos (by simp [he])]
        by_cases heq : e.1 = q
        · rw [List.find?_cons_of_pos _ (by simp [heq]),
            List.find?_cons_of_pos _ (by simp [heq])]
        · rw [List.find?_cons_of_neg _ (by simp [heq]),
            List.find?_cons_of_neg _ (by simp [heq]), ih]

theorem fsLookup_fsRemove_ne (fs : FS) (p q : FPath) (h : q ≠ p) :
    fsLookup (fsRemove fs p) q = fsLookup fs q := by
  unfold fsLookup
  rw [find?_fsRemove_ne fs p q h]

theorem fsLookup_fsSet_self (fs : FS) (p : FPath) (c : String) :
    fsLookup (fsSet fs p c) p = some c := by
  have h : (fsRemove fs p).find? (fun e => e.1 = p) = none := by
    rw [List.find?_eq_none]
    intro x hx
    have := (List.mem_filter.mp hx).2
    simpa using this
  simp [fsLookup, fsSet, List.find?_append, h, List.find?_cons]

theorem fsLookup_fsSet_ne (fs : FS) (p q : FPath) (c : String) (h : q ≠ p) :
    fsLookup (fsSet fs p c) q = fsLookup fs q := by
  have h2 : ([((p : FPath), c)].find? (fun e => e.1 = q)) = none := by
    have : ¬((p : FPath) = q) := fun hh => h hh.symm
    simp [List.find?_cons, this]
  have h1 := fsLookup_fsRemove_ne fs p q h
  unfold fsLookup at h1 ⊢
  unfold fsSet
  rw [List.find?_append, h2, Option.or_none]
  exact h1

theorem applyEvs_append (fs : FS) (a b : List FsEv) :
    applyEvs fs (a ++ b) = applyEvs (applyEvs fs a) b := by
  simp [applyEvs, List.foldl_append]

theorem applyEvs_write_rename (fs : FS) (pf tmp dst : FPath) (c : String) (p : FPath)
    (hp1 : p ≠ tmp) (hp2 : p ≠ dst) :
    fsLookup (applyEvs fs [FsEv.mkdir pf, FsEv.write tmp c, FsEv.rename tmp dst]) p
      = fsLookup fs p := by
  show fsLookup (applyEv (applyEv (applyEv fs (FsEv.mkdir pf)) (FsEv.write tmp c))
    (FsEv.rename tmp dst)) p = _
  simp only [applyEv, fsLookup_fsSet_self]
  rw [fsLookup_fsSet_ne _ _ _ _ hp2, fsLookup_fsRemove_ne _ _ _ hp1,
    fsLookup_fsSet_ne _ _ _ _ hp1]

theorem cleanup_staged_file_absent (fs : FS) (p : FPath) (h : fsExists fs p = false) :
    cleanup_staged_file fs p = fs := by
  have hnone : fsLookup fs p = none := by
    rcases hl : fsLookup fs p with _ | c
    · rfl
    · rw [fsExists, hl] at h
      simp at h
  have hfind : fs.find? (fun e => e.1 = p) = none := by
    unfold fsLookup at hnone
    exact Option.map_eq_none'.mp hnone
  unfold cleanup_staged_file fsRemove
  rw [List.filter_eq_self]
  intro e he
  have := List.find?_eq_none.mp hfind e he
  simpa using this

/-! ### Routing lemmas -/

theorem route_to_person_pid (r : Registry) (fs : FS) (log : CommitLog)
    (b im pid : Nat) (staged : FPath) (fn : String) (root : FPath) (f : Bool) :
    (route_to_person r fs log b im pid staged fn root f).1.person_id = pid := by
  unfold route_to_person
  rcases hfind : r.persons.find? (fun p => p.pid = pid) with _ | person <;> rw [hfind] <;>
    try rfl
  dsimp only
  split
  · rfl
  · split
    · rfl
    · rcases hs : fsLookup fs staged with _ | c <;> cases f <;> dsimp only <;>
        try rfl
      split <;> rfl

theorem route_to_person_dst_exists (r : Registry) (fs : FS) (log : CommitLog)
    (b im pid : Nat) (staged : FPath) (fn : String) (root : FPath) (f : Bool)
    (person : Person)
    (hfind : r.persons.find? (fun p => p.pid = pid) = some person)
    (hex : fsExists fs (root ++ [person.folderRel] ++ [fn]) = true) :
    (route_to_person r fs log b im pid staged fn root f).2.2 = [] ∧
    ((route_to_person r fs log b im pid staged fn root f).1.status = "skipped" ∨
      (route_to_person r fs log b im pid staged fn root f).1.status = "exists") := by
  unfold route_to_person
  rw [hfind]
  simp only [List.append_assoc, List.singleton_append] at hex
  by_cases hlog : check_output_exists_in_log log (root ++ [person.folderRel, fn]) = true
  · simp [hlog]
  · simp [hlog, hex]

theorem route_to_person_not_error (r : Registry) (fs : FS) (log : CommitLog)
    (b im pid : Nat) (staged : FPath) (fn : String) (root : FPath)
    (person : Person) (c : String)
    (hfind : r.persons.find? (fun p => p.pid = pid) = some person)
    (hstaged : fsLookup fs staged = some c) :
    (route_to_person r fs log b im pid staged fn root false).1.status ≠ "error" := by
  unfold route_to_person
  rw [hfind]
  dsimp only
  split
  · simp
  · split
    · simp
    · rw [hstaged]
      dsimp only
      split <;> simp

theorem route_to_person_lookup (r : Registry) (fs : FS) (log : CommitLog)
    (b im pid : Nat) (staged : FPath) (fn : String) (root : FPath) (f : Bool) (p : FPath)
    (hpex : fsExists fs p = true)
    (hptmp : ∀ person, r.persons.find? (fun q => q.pid = pid) = some person →
      p ≠ root ++ [person.folderRel] ++ [tmpName fn]) :
    fsLookup (applyEvs fs (route_to_person r fs log b im pid staged fn root f).2.2) p
      = fsLookup fs p := by
  unfold route_to_person
  rcases hfind : r.persons.find? (fun q => q.pid = pid) with _ | person <;> rw [hfind] <;>
    try rfl
  have hptmp' := hptmp person hfind
  dsimp only
  split
  · rfl
  · split
    · rfl
    · rename_i hexdst
      rcases hstaged : fsLookup fs staged with _ | c <;> cases f <;>
        dsimp only <;> try rfl
      have hpdst : p ≠ root ++ [person.folderRel] ++ [fn] := by
        intro hcon
        rw [hcon] at hpex
        simp only [List.append_assoc, List.singleton_append] at hpex
        exact hexdst (by simpa using hpex)
      split <;>
      · dsimp only
        refine applyEvs_write_rename fs _ _ _ _ p ?_ ?_
        · simpa [List.append_assoc] using hptmp'
        · simpa [List.append_assoc] using hpdst

theorem route_fanout_length (r : Registry) (b im : Nat) (staged : FPath) (fn : String)
    (root : FPath) (fails : Nat → Bool) :
    ∀ (pids : List Nat) (fs : FS) (log : CommitLog),
      (route_fanout r b im staged fn root fails pids fs log).1.length = pids.length := by
  intro pids
  induction pids with
  | nil => intro fs log; rfl
  | cons pid rest ih =>
      intro fs log
      simp only [route_fanout, List.length_cons, ih]

theorem route_fanout_mem_pid (r : Registry) (b im : Nat) (staged : FPath) (fn : String)
    (root : FPath) (fails : Nat → Bool) :
    ∀ (pids : List Nat) (fs : FS) (log : CommitLog),
      ∀ res ∈ (route_fanout r b im staged fn root fails pids fs log).1,
        res.person_id ∈ pids := by
  intro pids
  induction pids with
  | nil => intro fs log res hres; simp [route_fanout] at hres
  | cons pid rest ih =>
      intro fs log res hres
      simp only [route_fanout] at hres
      rcases List.mem_cons.mp hres with rfl | hres
      · rw [route_to_person_pid]
        exact List.mem_cons_self _ _
      · exact List.mem_cons_of_mem _ (ih _ _ res hres)

theorem route_fanout_lookup (r : Registry) (b im : Nat) (staged : FPath) (fn : String)
    (root : FPath) (fails : Nat → Bool) :
    ∀ (pids : List Nat) (fs : FS) (log : CommitLog) (p : FPath),
      fsExists fs p = true →
      (∀ pid ∈ pids, ∀ person, r.persons.find? (fun q => q.pid = pid) = some person →
        p ≠ root ++ [person.folderRel] ++ [tmpName fn]) →
      fsLookup (applyEvs fs (route_fanout r b im staged fn root fails pids fs log).2.2) p
        = fsLookup fs p := by
  intro pids
  induction pids with
  | nil => intro fs log p _ _; rfl
  | cons pid rest ih =>
      intro fs log p hpex hptmp
      simp only [route_fanout]
      rw [applyEvs_append]
      have hstep := route_to_person_lookup r fs log b im pid staged fn root (fails pid) p hpex
        (fun person h => hptmp pid (List.mem_cons_self _ _) person h)
      have hpex1 : fsExists (applyEvs fs
          (route_to_person r fs log b im pid staged fn root (fails pid)).2.2) p = true := by
        unfold fsExists
        rw [hstep]
        exact hpex
      have := ih (applyEvs fs (route_to_person r fs log b im pid staged fn root (fails pid)).2.2)
        (route_to_person r fs log b im pid staged fn root (fails pid)).2.1 p hpex1
        (fun q hq person h => hptmp q (List.mem_cons_of_mem _ hq) person h)
      rw [this, hstep]

theorem route_fanout_no_error (r : Registry) (b im : Nat) (staged : FPath) (fn : String)
    (root : FPath) (fails : Nat → Bool) :
    ∀ (pids : List Nat) (fs : FS) (log : CommitLog),
      (∀ pid ∈ pids, ∃ person, r.persons.find? (fun q => q.pid = pid) = some person) →
      fsExists fs staged = true →
      (∀ pid ∈ pids, ∀ person, r.persons.find? (fun q => q.pid = pid) = some person →
        staged ≠ root ++ [person.folderRel] ++ [tmpName fn]) →
      ∀ res ∈ (route_fanout r b im staged fn root fails pids fs log).1,
        fails res.person_id = false → res.status ≠ "error" := by
  intro pids
  induction pids with
  | nil => intro fs log _ _ _ res hres; simp [route_fanout] at hres
  | cons pid rest ih =>
      intro fs log hpers hstg hstmp res hres hf
      simp only [route_fanout] at hres
      rcases List.mem_cons.mp hres with rfl | hres
      · rw [route_to_person_pid] at hf
        obtain ⟨person, hperson⟩ := hpers pid (List.mem_cons_self _ _)
        obtain ⟨c, hc⟩ := Option.isSome_iff_exists.mp hstg
        rw [hf]
        exact route_to_person_not_error r fs log b im pid staged fn root person c hperson hc
      · have hstep := route_to_person_lookup r fs log b im pid staged fn root (fails pid) staged
          hstg (fun person h => hstmp pid (List.mem_cons_self _ _) person h)
        have hstg1 : fsExists (applyEvs fs
            (route_to_person r fs log b im pid staged fn root (fails pid)).2.2) staged = true := by
          unfold fsExists
          rw [hstep]
          exact hstg
        exact ih _ _ (fun q hq => hpers q (List.mem_cons_of_mem _ hq)) hstg1
          (fun q hq person h => hstmp q (List.mem_cons_of_mem _ hq) person h) res hres hf

/-- Claim C2, counterexample: with a leftover temporary file
out/alice/img__0123456789ab.tmp on disk (as a crash during a previous
commit leaves behind), routing the same image again copies the staged
artifact over that existing file and renames it away: a file that already
existed under output_root is destroyed, refuting "no file that already
exists under output_root is ever overwritten". -/
theorem c2_counterexample :
    fsLookup [((["out", "alice", "img__0123456789ab.tmp"] : FPath), "old"),
        ((["hot_storage", "staging", "img__0123456789ab.jpg"] : FPath), "new")]
      ["out", "alice", "img__0123456789ab.tmp"] = some "old" ∧
    List.isPrefixOf ["out"] ["out", "alice", "img__0123456789ab.tmp"] = true ∧
    fsLookup
      (applyEvs
        [((["out", "alice", "img__0123456789ab.tmp"] : FPath), "old"),
         ((["hot_storage", "staging", "img__0123456789ab.jpg"] : FPath), "new")]
        (route_image ⟨[⟨1, "Alice", "alice"⟩], [], [], 0, 0⟩
          [((["out", "alice", "img__0123456789ab.tmp"] : FPath), "old"),
           ((["hot_storage", "staging", "img__0123456789ab.jpg"] : FPath), "new")]
          ⟨[], 0⟩ 1 7 ["hot_storage", "staging", "img__0123456789ab.jpg"]
          "img" "0123456789abcdef" ["out"] (fun _ => false) [1]).2.2)
      ["out", "alice", "img__0123456789ab.tmp"] = none := by
  refine ⟨rfl, rfl, ?_⟩
  rfl

/-- Claim C2, amended: for every image routed by the fan-out, (i) a target
whose destination already exists is skipped with no filesystem operation
at all (status "skipped" or "exists"); (ii) a per-target outcome is
returned for every target, and an error on one target (injected write
failure) does not abort the others — every target whose person exists and
whose own write does not fail reports a non-error outcome; (iii) after all
targets the staged file is deleted (the cleanup is a total no-op on an
absent file, silently tolerating absence); (iv) no file that already
exists under output_root is ever overwritten *except* a target's own
leftover temporary `dst.tmp`: every pre-existing path that is not one of
the targets' temporary paths has unchanged content. -/
theorem c2_amended :
    (∀ (r : Registry) (fs : FS) (log : CommitLog) (b im pid : Nat) (staged : FPath)
        (fn : String) (root : FPath) (f : Bool) (person : Person),
      r.persons.find? (fun q => q.pid = pid) = some person →
      fsExists fs (root ++ [person.folderRel] ++ [fn]) = true →
      (route_to_person r fs log b im pid staged fn root f).2.2 = [] ∧
        ((route_to_person r fs log b im pid staged fn root f).1.status = "skipped" ∨
          (route_to_person r fs log b im pid staged fn root f).1.status = "exists")) ∧
    (∀ (r : Registry) (fs : FS) (log : CommitLog) (b im : Nat) (staged : FPath)
        (stem hash : String) (root : FPath) (fails : Nat → Bool) (pids : List Nat),
      (route_image r fs log b im staged stem hash root fails pids).1.length
        = pids.length) ∧
    (∀ (r : Registry) (fs : FS) (log : CommitLog) (b im : Nat) (staged : FPath)
        (stem hash : String) (root : FPath) (fails : Nat → Bool) (pids : List Nat)
        (p : FPath),
      fsExists fs p = true →
      (∀ pid ∈ pids, ∀ person, r.persons.find? (fun q => q.pid = pid) = some person →
        p ≠ root ++ [person.folderRel] ++
          [tmpName (generate_deterministic_filename stem hash)]) →
      fsLookup (applyEvs fs (route_image r fs log b im staged stem hash root fails pids).2.2) p
        = fsLookup fs p) ∧
    (∀ (r : Registry) (fs : FS) (log : CommitLog) (b im : Nat) (staged : FPath)
        (stem hash : String) (root : FPath) (fails : Nat → Bool) (pids : List Nat),
      (∀ pid ∈ pids, ∃ person, r.persons.find? (fun q => q.pid = pid) = some person) →
      fsExists fs staged = true →
      (∀ pid ∈ pids, ∀ person, r.persons.find? (fun q => q.pid = pid) = some person →
        staged ≠ root ++ [person.folderRel] ++
          [tmpName (generate_deterministic_filename stem hash)]) →
      ∀ res ∈ (route_image r fs log b im staged stem hash root fails pids).1,
        fails res.person_id = false → res.status ≠ "error") ∧
    (∀ (r : Registry) (fs : FS) (log : CommitLog) (gfn : Option String) (b im : Nat)
        (stem hash comp : String) (root : FPath) (fails : Nat → Bool) (pids : List Nat),
      fsLookup (commit_image r fs log false gfn b im stem hash comp root fails pids).2.2
        (staging_dir ++ [generate_deterministic_filename stem hash]) = none) ∧
    (∀ (fs : FS) (p : FPath), fsExists fs p = false → cleanup_staged_file fs p = fs) := by
  refine ⟨?_, ?_, ?_, ?_, ?_, cleanup_staged_file_absent⟩
  · intro r fs log b im pid staged fn root f person hfind hex
    exact route_to_person_dst_exists r fs log b im pid staged fn root f person hfind hex
  · intro r fs log b im staged stem hash root fails pids
    unfold route_image
    by_cases hp : pids.isEmpty
    · rw [if_pos hp]
      have : pids = [] := by
        cases pids
        · rfl
        · simp at hp
      rw [this]
      rfl
    · rw [if_neg hp]
      exact route_fanout_length r b im staged _ root fails pids fs log
  · intro r fs log b im staged stem hash root fails pids p hpex hptmp
    unfold route_image
    by_cases hp : pids.isEmpty
    · rw [if_pos hp]
      rfl
    · rw [if_neg hp]
      exact route_fanout_lookup r b im staged _ root fails pids fs log p hpex hptmp
  · intro r fs log b im staged stem hash root fails pids hpers hstg hstmp res hres
    unfold route_image at hres
    by_cases hp : pids.isEmpty
    · rw [if_pos hp] at hres
      simp at hres
    · rw [if_neg hp] at hres
      exact route_fanout_no_error r b im staged _ root fails pids fs log hpers hstg hstmp res hres
  · intro r fs log gfn b im stem hash comp root fails pids
    unfold commit_image
    dsimp only
    rw [if_neg (by simp)]
    exact fsLookup_fsRemove_self _ _

/-- Witness for `c2_amended`: a concrete target whose destination already
exists is skipped with no filesystem events, and the cleanup of an absent
staged file is a no-op. -/
theorem c2_amended_witness :
    (⟨[⟨1, "Alice", "alice"⟩], [], [], 0, 0⟩ : Registry).persons.find?
        (fun q => q.pid = 1) = some ⟨1, "Alice", "alice"⟩ ∧
    fsExists [((["out", "alice", "f.jpg"] : FPath), "x")]
      ((["out"] : FPath) ++ ["alice"] ++ ["f.jpg"]) = true ∧
    (route_to_person ⟨[⟨1, "Alice", "alice"⟩], [], [], 0, 0⟩
        [((["out", "alice", "f.jpg"] : FPath), "x")] ⟨[], 0⟩ 1 7 1
        ["hot_storage", "staging", "f.jpg"] "f.jpg" ["out"] false).2.2 = [] ∧
    fsExists ([] : FS) ["hot_storage", "staging", "gone.jpg"] = false ∧
    cleanup_staged_file ([] : FS) ["hot_storage", "staging", "gone.jpg"] = [] := by
  refine ⟨rfl, rfl, ?_, rfl, ?_⟩
  · exact (c2_amended.1 ⟨[⟨1, "Alice", "alice"⟩], [], [], 0, 0⟩
      [((["out", "alice", "f.jpg"] : FPath), "x")] ⟨[], 0⟩ 1 7 1
      ["hot_storage", "staging", "f.jpg"] "f.jpg" ["out"] false ⟨1, "Alice", "alice"⟩
      rfl rfl).1
  · exact c2_amended.2.2.2.2.2 ([] : FS) ["hot_storage", "staging", "gone.jpg"] rfl

/-! ### Registry lemmas (C3 / C4) -/

theorem filter_key_take {α β : Type} [DecidableEq β] (key : α → β) :
    ∀ (l : List α) (k : Nat), (l.map key).Nodup →
      l.filter (fun x => !(((l.map key).take k).contains (key x))) = l.drop k := by
  intro l
  induction l with
  | nil => intro k _; simp
  | cons x xs ih =>
      intro k hnd
      cases k with
      | zero => simp
      | succ k =>
          simp only [List.map_cons, List.take_succ_cons, List.drop_succ_cons]
          rw [List.filter_cons]
          rw [if_neg (by simp [List.contains_cons])]
          have hkx : key x ∉ xs.map key := (List.nodup_cons.mp (by simpa using hnd)).1
          have hcongr : xs.filter
              (fun y => !((key x :: (xs.map key).take k).contains (key y)))
              = xs.filter (fun y => !(((xs.map key).take k).contains (key y))) := by
            apply List.filter_congr
            intro y hy
            have hne : key y ≠ key x := by
              intro hc
              exact hkx (hc ▸ List.mem_map_of_mem key hy)
            simp [List.contains_cons, hne]
          rw [hcongr, ih k (List.nodup_cons.mp (by simpa using hnd)).2]

theorem deleteOldest_filter_self (l : List (Nat × EmbRow)) (pid k : Nat)
    (hnd : (l.map (fun e => e.2.embId)).Nodup) :
    (deleteOldest l pid k).filter (fun e => e.1 = pid)
      = (l.filter (fun e => e.1 = pid)).drop k := by
  unfold deleteOldest
  rw [List.filter_comm]
  have hsub : ((l.filter (fun e => e.1 = pid)).map (fun e => e.2.embId)).Nodup :=
    hnd.sublist (List.Sublist.map _ (List.filter_sublist l))
  exact filter_key_take (fun e => e.2.embId) (l.filter (fun e => e.1 = pid)) k hsub

theorem deleteOldest_filter_other (l : List (Nat × EmbRow)) (pid q k : Nat) (hq : q ≠ pid)
    (hnd : (l.map (fun e => e.2.embId)).Nodup) :
    (deleteOldest l pid k).filter (fun e => e.1 = q) = l.filter (fun e => e.1 = q) := by
  unfold deleteOldest
  rw [List.filter_comm]
  rw [List.filter_eq_self]
  intro e he
  have heq : e.1 = q := by simpa using (List.mem_filter.mp he).2
  have hel : e ∈ l := (List.mem_filter.mp he).1
  simp only [Bool.not_eq_true']
  cases hb : (((l.filter (fun e => e.1 = pid)).map (fun e => e.2.embId)).take k).contains
      e.2.embId
  · rfl
  exfalso
  have hmem : e.2.embId ∈ ((l.filter (fun e => e.1 = pid)).map (fun e => e.2.embId)).take k := by
    simpa using hb
  have hmem' : e.2.embId ∈ (l.filter (fun e => e.1 = pid)).map (fun e => e.2.embId) :=
    List.take_subset _ _ hmem
  obtain ⟨e', he', hkey⟩ := List.mem_map.mp hmem'
  have hinj := List.inj_on_of_nodup_map hnd
  have : e' = e := hinj (List.mem_of_mem_filter he') hel hkey
  subst this
  have : e'.1 = pid := by simpa using (List.mem_filter.mp he').2
  rw [heq] at this
  exact hq this

theorem update_centroid_embs (r : Registry) (pid : Nat) :
    (update_centroid r pid).embs = r.embs := by
  simp only [update_centroid]
  split <;> rfl

theorem update_centroid_persons (r : Registry) (pid : Nat) :
    (update_centroid r pid).persons = r.persons := by
  simp only [update_centroid]
  split <;> rfl

theorem update_centroid_nextEmbId (r : Registry) (pid : Nat) :
    (update_centroid r pid).nextEmbId = r.nextEmbId := by
  simp only [update_centroid]
  split <;> rfl

theorem update_centroid_clock (r : Registry) (pid : Nat) :
    (update_centroid r pid).clock = r.clock := by
  simp only [update_centroid]
  split <;> rfl

theorem embsOf_update_centroid (r : Registry) (pid q : Nat) :
    embsOf (update_centroid r pid) q = embsOf r q := by
  unfold embsOf
  rw [update_centroid_embs]

theorem personExists_update_centroid (r : Registry) (pid q : Nat) :
    personExists (update_centroid r pid) q = personExists r q := by
  unfold personExists
  rw [update_centroid_persons]

theorem add_person_embedding_eq (r : Registry) (pid : Nat) (v : Vec) (s : String)
    (hp : personExists r pid = true) :
    add_person_embedding r pid v s = some (update_centroid
      { r with
        embs :=
          (if ((r.embs ++ [(pid, (⟨r.nextEmbId, r.clock, s,
              serialize_embedding v⟩ : EmbRow))]).filter
              (fun e => e.1 = pid)).length > max_embeddings_per_person then
            deleteOldest (r.embs ++ [(pid, (⟨r.nextEmbId, r.clock, s,
                serialize_embedding v⟩ : EmbRow))])
              pid
              (((r.embs ++ [(pid, (⟨r.nextEmbId, r.clock, s,
                serialize_embedding v⟩ : EmbRow))]).filter
                (fun e => e.1 = pid)).length - max_embeddings_per_person)
          else r.embs ++ [(pid, (⟨r.nextEmbId, r.clock, s,
              serialize_embedding v⟩ : EmbRow))]),
        nextEmbId := r.nextEmbId + 1, clock := r.clock + 1 } pid) := by
  unfold add_person_embedding
  rw [hp]
  rfl

theorem add_person_embedding_spec (r : Registry) (pid : Nat) (v : Vec) (s : String)
    (hWF : RegistryWF r) (hp : personExists r pid = true) :
    ∃ r', add_person_embedding r pid v s = some r' ∧
      RegistryWF r' ∧ personExists r' pid = true ∧
      (∀ q, q ≠ pid → embsOf r' q = embsOf r q) ∧
      embsOf r' pid =
        (embsOf r pid ++ [(⟨r.nextEmbId, r.clock, s, serialize_embedding v⟩ : EmbRow)]).drop
          ((embsOf r pid).length + 1 - max_embeddings_per_person) := by
  have hfil : (r.embs ++ [(pid, (⟨r.nextEmbId, r.clock, s, serialize_embedding v⟩ : EmbRow))]).filter
      (fun e => e.1 = pid)
      = r.embs.filter (fun e => e.1 = pid) ++
          [(pid, ⟨r.nextEmbId, r.clock, s, serialize_embedding v⟩)] := by
    rw [List.filter_append]
    simp
  have hcount : ((r.embs ++ [(pid, (⟨r.nextEmbId, r.clock, s,
      serialize_embedding v⟩ : EmbRow))]).filter (fun e => e.1 = pid)).length
      = (embsOf r pid).length + 1 := by
    rw [hfil]
    simp [embsOf]
  have hids1 : ((r.embs ++ [(pid, (⟨r.nextEmbId, r.clock, s,
      serialize_embedding v⟩ : EmbRow))]).map (fun e => e.2.embId)).Pairwise (· < ·) := by
    rw [List.map_append, List.pairwise_append]
    refine ⟨hWF.ids, by simp, ?_⟩
    intro a ha b hb
    simp only [List.map_cons, List.map_nil, List.mem_singleton] at hb
    subst hb
    obtain ⟨e, he, hae⟩ := List.mem_map.mp ha
    rw [← hae]
    exact hWF.idsLt e he
  have htimes1 : ((r.embs ++ [(pid, (⟨r.nextEmbId, r.clock, s,
      serialize_embedding v⟩ : EmbRow))]).map (fun e => e.2.createdAt)).Pairwise (· < ·) := by
    rw [List.map_append, List.pairwise_append]
    refine ⟨hWF.times, by simp, ?_⟩
    intro a ha b hb
    simp only [List.map_cons, List.map_nil, List.mem_singleton] at hb
    subst hb
    obtain ⟨e, he, hae⟩ := List.mem_map.mp ha
    rw [← hae]
    exact hWF.timesLt e he
  have hnd1 : ((r.embs ++ [(pid, (⟨r.nextEmbId, r.clock, s,
      serialize_embedding v⟩ : EmbRow))]).map (fun e => e.2.embId)).Nodup :=
    hids1.imp (fun hab => Nat.ne_of_lt hab)
  have hidsLt1 : ∀ e ∈ r.embs ++ [(pid, (⟨r.nextEmbId, r.clock, s,
      serialize_embedding v⟩ : EmbRow))], e.2.embId < r.nextEmbId + 1 := by
    intro e he
    rcases List.mem_append.mp he with he | he
    · exact Nat.lt_succ_of_lt (hWF.idsLt e he)
    · simp only [List.mem_singleton] at he
      subst he
      exact Nat.lt_succ_self _
  have htimesLt1 : ∀ e ∈ r.embs ++ [(pid, (⟨r.nextEmbId, r.clock, s,
      serialize_embedding v⟩ : EmbRow))], e.2.createdAt < r.clock + 1 := by
    intro e he
    rcases List.mem_append.mp he with he | he
    · exact Nat.lt_succ_of_lt (hWF.timesLt e he)
    · simp only [List.mem_singleton] at he
      subst he
      exact Nat.lt_succ_self _
  rw [add_person_embedding_eq r pid v s hp]
  by_cases hcnt : ((r.embs ++ [(pid, (⟨r.nextEmbId, r.clock, s,
      serialize_embedding v⟩ : EmbRow))]).filter (fun e => e.1 = pid)).length
      > max_embeddings_per_person
  · rw [if_pos hcnt]
    refine ⟨_, rfl, ?_, ?_, ?_, ?_⟩
    · constructor
      · rw [update_centroid_embs]
        exact hids1.sublist ((List.filter_sublist _).map _)
      · intro e he
        rw [update_centroid_embs] at he
        rw [update_centroid_nextEmbId]
        exact hidsLt1 e (List.mem_of_mem_filter he)
      · rw [update_centroid_embs]
        exact htimes1.sublist ((List.filter_sublist _).map _)
      · intro e he
        rw [update_centroid_embs] at he
        rw [update_centroid_clock]
        exact htimesLt1 e (List.mem_of_mem_filter he)
    · rw [personExists_update_centroid]
      exact hp
    · intro q hq
      rw [embsOf_update_centroid]
      show ((deleteOldest _ pid _).filter (fun e => e.1 = q)).map (·.2) = embsOf r q
      rw [deleteOldest_filter_other _ pid q _ hq hnd1]
      unfold embsOf
      rw [List.filter_append]
      have : ([(pid, (⟨r.nextEmbId, r.clock, s, serialize_embedding v⟩ : EmbRow))].filter
          (fun e => e.1 = q)) = [] := by
        simp [Ne.symm hq]
      rw [this, List.append_nil]
    · rw [embsOf_update_centroid]
      show ((deleteOldest _ pid _).filter (fun e => e.1 = pid)).map (·.2) = _
      rw [deleteOldest_filter_self _ pid _ hnd1, hcount, hfil]
      rw [List.map_drop, List.map_append]
      rfl
  · rw [if_neg hcnt]
    have hk0 : (embsOf r pid).length + 1 - max_embeddings_per_person = 0 := by
      rw [hcount] at hcnt
      omega
    refine ⟨_, rfl, ?_, ?_, ?_, ?_⟩
    · constructor
      · rw [update_centroid_embs]
        exact hids1
      · intro e he
        rw [update_centroid_embs] at he
        rw [update_centroid_nextEmbId]
        exact hidsLt1 e he
      · rw [update_centroid_embs]
        exact htimes1
      · intro e he
        rw [update_centroid_embs] at he
        rw [update_centroid_clock]
        exact htimesLt1 e he
    · rw [personExists_update_centroid]
      exact hp
    · intro q hq
      rw [embsOf_update_centroid]
      unfold embsOf
      show ((r.embs ++ _).filter (fun e => e.1 = q)).map (·.2) = _
      rw [List.filter_append]
      have : ([(pid, (⟨r.nextEmbId, r.clock, s, serialize_embedding v⟩ : EmbRow))].filter
          (fun e => e.1 = q)) = [] := by
        simp [Ne.symm hq]
      rw [this, List.append_nil]
    · rw [embsOf_update_centroid]
      rw [hk0, List.drop_zero]
      show ((r.embs ++ _).filter (fun e => e.1 = pid)).map (·.2) = _
      rw [hfil, List.map_append]
      rfl

theorem add_many_spec (pid : Nat) (vs : List Vec) : ∀ (r : Registry),
    RegistryWF r → personExists r pid = true →
    (embsOf r pid).length ≤ max_embeddings_per_person →
    ∃ r', add_many r pid vs = some r' ∧ RegistryWF r' ∧
      (embsOf r' pid).map (fun e => e.vec)
        = ((embsOf r pid).map (fun e => e.vec) ++ vs.map serialize_embedding).drop
            ((embsOf r pid).length + vs.length - max_embeddings_per_person) := by
  have hmax : max_embeddings_per_person = 30 := rfl
  induction vs with
  | nil =>
      intro r hWF hp hlen
      refine ⟨r, rfl, hWF, ?_⟩
      have h0 : (embsOf r pid).length + ([] : List Vec).length - max_embeddings_per_person
          = 0 := by
        simp only [List.length_nil]
        omega
      rw [h0, List.drop_zero]
      simp
  | cons v vs ih =>
      intro r hWF hp hlen
      obtain ⟨r1, heq1, hWF1, hp1, _, hproj1⟩ :=
        add_person_embedding_spec r pid v "reference" hWF hp
      have hlen_drop : (embsOf r1 pid).length =
          (embsOf r pid).length + 1 -
            ((embsOf r pid).length + 1 - max_embeddings_per_person) := by
        rw [hproj1]
        simp [List.length_drop]
      have hlen1 : (embsOf r1 pid).length ≤ max_embeddings_per_person := by
        rw [hlen_drop]
        omega
      obtain ⟨r', heq', hWF', hproj'⟩ := ih r1 hWF1 hp1 hlen1
      refine ⟨r', ?_, hWF', ?_⟩
      · show (add_person_embedding r pid v "reference" >>=
          fun r1 => add_many r1 pid vs) = some r'
        rw [heq1]
        exact heq'
      · rw [hproj', hlen_drop, hproj1, List.map_drop, List.map_append]
        have hA : ((embsOf r pid).map (fun e => e.vec) ++
            [(⟨r.nextEmbId, r.clock, "reference", serialize_embedding v⟩ : EmbRow)].map
              (fun e => e.vec)).length = (embsOf r pid).length + 1 := by
          simp
        rw [show ([(⟨r.nextEmbId, r.clock, "reference",
            serialize_embedding v⟩ : EmbRow)].map (fun e => e.vec))
            = [serialize_embedding v] from rfl] at hA ⊢
        have hk1 : (embsOf r pid).length + 1 - max_embeddings_per_person ≤
            ((embsOf r pid).map (fun e => e.vec) ++ [serialize_embedding v]).length := by
          rw [hA]
          omega
        rw [← List.drop_append_of_le_length hk1, List.drop_drop]
        have hassoc : ((embsOf r pid).map (fun e => e.vec) ++ [serialize_embedding v]) ++
            vs.map serialize_embedding
            = (embsOf r pid).map (fun e => e.vec) ++ (v :: vs).map serialize_embedding := by
          rw [List.append_assoc]
          rfl
        rw [hassoc]
        congr 1
        simp only [List.length_cons]
        omega

/-- Claim C3: starting from a person with no embeddings, after N adds via
`add_person_embedding` the person holds exactly min(N, MAX_EMBEDDINGS = 30)
embeddings; the survivors are the most recent min(N, 30) adds (the suffix
of the serialized add sequence) and their `created_at` stamps are strictly
increasing, so the survivors are exactly the most recent by `created_at`.
Each add is a single state transition comprising insert, count check,
deletion of the oldest (count − MAX) rows when over the cap, and centroid
recompute, as in the source's one transaction. -/
theorem c3_fifo_cap (r : Registry) (pid : Nat) (vs : List Vec)
    (hWF : RegistryWF r) (hp : personExists r pid = true) (h0 : embsOf r pid = []) :
    ∃ r', add_many r pid vs = some r' ∧
      (embsOf r' pid).length = min vs.length max_embeddings_per_person ∧
      (embsOf r' pid).map (fun e => e.vec)
        = (vs.map serialize_embedding).drop (vs.length - max_embeddings_per_person) ∧
      ((embsOf r' pid).map (fun e => e.createdAt)).Pairwise (· < ·) := by
  have hmax : max_embeddings_per_person = 30 := rfl
  obtain ⟨r', heq, hWF', hproj⟩ := add_many_spec pid vs r hWF hp (by rw [h0]; simp)
  rw [h0] at hproj
  simp only [List.map_nil, List.nil_append, List.length_nil, Nat.zero_add] at hproj
  refine ⟨r', heq, ?_, hproj, ?_⟩
  · have := congrArg List.length hproj
    simp only [List.length_map, List.length_drop] at this
    rw [this]
    omega
  · have hsub : ((embsOf r' pid).map (fun e => e.createdAt)).Sublist
        (r'.embs.map (fun e => e.2.createdAt)) := by
      unfold embsOf
      rw [List.map_map]
      exact List.Sublist.map _ (List.filter_sublist _)
    exact hWF'.times.sublist hsub

/-- Witness for `c3_fifo_cap`: two adds to a fresh person. -/
theorem c3_fifo_cap_witness :
    RegistryWF ⟨[⟨1, "a", "fa"⟩], [], [], 0, 0⟩ ∧
    personExists ⟨[⟨1, "a", "fa"⟩], [], [], 0, 0⟩ 1 = true ∧
    embsOf ⟨[⟨1, "a", "fa"⟩], [], [], 0, 0⟩ 1 = [] ∧
    ∃ r', add_many ⟨[⟨1, "a", "fa"⟩], [], [], 0, 0⟩ 1 [[1, 0], [0, 1]] = some r' ∧
      (embsOf r' 1).length = min ([[1, 0], [0, 1]] : List Vec).length
        max_embeddings_per_person ∧
      (embsOf r' 1).map (fun e => e.vec)
        = (([[1, 0], [0, 1]] : List Vec).map serialize_embedding).drop
            (([[1, 0], [0, 1]] : List Vec).length - max_embeddings_per_person) ∧
      ((embsOf r' 1).map (fun e => e.createdAt)).Pairwise (· < ·) :=
  ⟨⟨by decide, by decide, by decide, by decide⟩, rfl, rfl,
    c3_fifo_cap ⟨[⟨1, "a", "fa"⟩], [], [], 0, 0⟩ 1 [[1, 0], [0, 1]]
      ⟨by decide, by decide, by decide, by decide⟩ rfl rfl⟩

/-! ### C4 lemmas (centroid invariant) -/

theorem normSq_cons (x : ℚ) (v : Vec) : normSq (x :: v) = x * x + normSq v := by
  unfold normSq
  rw [List.map_cons, List.sum_cons]

theorem normSq_map_div (v : Vec) (n : ℚ) :
    normSq (v.map (· / n)) = normSq v / (n * n) := by
  induction v with
  | nil => simp [normSq]
  | cons x v ih =>
      rw [List.map_cons, normSq_cons, normSq_cons, ih, div_mul_div_comm, add_div]

theorem sqrtQ_nonneg (q : ℚ) : 0 ≤ sqrtQ q := by
  unfold sqrtQ
  positivity

theorem sqrtQ_one : sqrtQ 1 = 1 := by
  unfold sqrtQ
  norm_num [Nat.sqrt_one]

theorem normSq_normalize (v : Vec) (hpos : 0 < normSq v)
    (hexact : sqrtQ (normSq v) * sqrtQ (normSq v) = normSq v) :
    normSq (normalize_embedding v) = 1 := by
  have hn0 : sqrtQ (normSq v) ≠ 0 := by
    intro h
    rw [h, mul_zero] at hexact
    rw [← hexact] at hpos
    exact lt_irrefl _ hpos
  have hn : 0 < sqrtQ (normSq v) := lt_of_le_of_ne (sqrtQ_nonneg _) (Ne.symm hn0)
  simp only [normalize_embedding]
  rw [if_pos hn, normSq_map_div, hexact]
  exact div_self (ne_of_gt hpos)

theorem normalize_of_unit (v : Vec) (h : normSq v = 1) : normalize_embedding v = v := by
  simp only [normalize_embedding]
  rw [h, sqrtQ_one, if_pos one_pos]
  simp

theorem find?_map_upsert (cs : List (Nat × CentroidRow)) (pid : Nat) (row : CentroidRow)
    (h : cs.any (fun c => c.1 = pid) = true) :
    (cs.map (fun c => if c.1 = pid then (pid, row) else c)).find? (fun c => c.1 = pid)
      = some (pid, row) := by
  induction cs with
  | nil => simp at h
  | cons e cs ih =>
      rw [List.map_cons]
      by_cases he : e.1 = pid
      · rw [if_pos he, List.find?_cons_of_pos _ (by simp)]
      · rw [if_neg he, List.find?_cons_of_neg _ (by simp [he])]
        apply ih
        rw [List.any_cons] at h
        simpa [he] using h

theorem find?_upsertCent (cs : List (Nat × CentroidRow)) (pid : Nat) (row : CentroidRow) :
    (upsertCent cs pid row).find? (fun c => c.1 = pid) = some (pid, row) := by
  unfold upsertCent
  by_cases h : cs.any (fun c => c.1 = pid)
  · rw [if_pos h]
    exact find?_map_upsert cs pid row h
  · rw [if_neg h]
    have hnone : cs.find? (fun c => c.1 = pid) = none := by
      rw [List.find?_eq_none]
      intro x hx hpx
      refine h ?_
      rw [List.any_eq_true]
      exact ⟨x, hx, hpx⟩
    rw [List.find?_append, hnone, Option.none_or, List.find?_cons_of_pos _ (by simp)]

theorem centOf_update_centroid_self (r : Registry) (pid : Nat) :
    centOf (update_centroid r pid) pid =
      (if (embsOf r pid).isEmpty then none
       else some ⟨serialize_embedding (normalize_embedding
          (meanVec ((embsOf r pid).map (fun e => e.vec)))), (embsOf r pid).length⟩) := by
  simp only [update_centroid]
  split
  · rename_i h
    unfold centOf
    have hfind : ((r.cents.filter (fun c => !(c.1 = pid))).find? (fun c => c.1 = pid))
        = none := by
      rw [List.find?_eq_none]
      intro x hx
      have := (List.mem_filter.mp hx).2
      simpa using this
    simp [hfind]
  · rename_i h
    unfold centOf
    rw [find?_upsertCent]
    rfl

theorem centOf_add (r : Registry) (pid : Nat) (v : Vec) (s : String)
    (hp : personExists r pid = true) :
    ∀ r', add_person_embedding r pid v s = some r' →
      centOf r' pid =
        (if (embsOf r' pid).isEmpty then none
         else some ⟨serialize_embedding (normalize_embedding
            (meanVec ((embsOf r' pid).map (fun e => e.vec)))), (embsOf r' pid).length⟩) := by
  intro r' hadd
  rw [add_person_embedding_eq r pid v s hp] at hadd
  have hr' := Option.some_inj.mp hadd
  rw [← hr', centOf_update_centroid_self, embsOf_update_centroid]

theorem personExists_of_add (r : Registry) (pid : Nat) (v : Vec) (s : String) (r' : Registry)
    (hadd : add_person_embedding r pid v s = some r') : personExists r pid = true := by
  cases hpe : personExists r pid
  · unfold add_person_embedding at hadd
    rw [hpe] at hadd
    simp at hadd
  · rfl

theorem delete_person_clears (r : Registry) (pid : Nat) :
    embsOf (delete_person r pid).1 pid = [] ∧ centOf (delete_person r pid).1 pid = none := by
  constructor
  · unfold delete_person embsOf
    dsimp only
    rw [List.map_eq_nil_iff, List.filter_eq_nil_iff]
    intro a ha
    have := (List.mem_filter.mp ha).2
    simpa using this
  · unfold delete_person centOf
    dsimp only
    have hfind : ((r.cents.filter (fun c => !(c.1 = pid))).find? (fun c => c.1 = pid))
        = none := by
      rw [List.find?_eq_none]
      intro x hx
      have := (List.mem_filter.mp hx).2
      simpa using this
    rw [hfind]
    rfl

/-- Claim C4, counterexample: a person holds the unit embedding `[1,0]`;
inserting the exactly opposite unit embedding `[-1,0]` succeeds, and the
recomputed centroid row stores the zero vector (the mean is zero, so the
normalization guard returns it unchanged), whose L2 norm is 0, not 1 —
refuting "its L2 norm is 1" from the spec. -/
theorem c4_counterexample :
    ∃ r' : Registry,
      add_person_embedding
          (⟨[⟨1, "a", "fa"⟩], [(1, ⟨0, 0, "reference", [(1:ℚ), 0]⟩)],
            [(1, ⟨[(1:ℚ), 0], 1⟩)], 1, 1⟩ : Registry) 1 [(-1:ℚ), 0] "reference"
        = some r' ∧
      ∃ c : CentroidRow, centOf r' 1 = some c ∧ c.centroid = [(0:ℚ), 0] ∧
        normSq c.centroid ≠ 1 := by
  have hns : normSq [(-1:ℚ), 0] = 1 := by norm_num [normSq]
  have hser : serialize_embedding [(-1:ℚ), 0] = [(-1:ℚ), 0] := by
    unfold serialize_embedding
    exact normalize_of_unit _ hns
  have hadd := add_person_embedding_eq
    (⟨[⟨1, "a", "fa"⟩], [(1, ⟨0, 0, "reference", [(1:ℚ), 0]⟩)],
      [(1, ⟨[(1:ℚ), 0], 1⟩)], 1, 1⟩ : Registry) 1 [(-1:ℚ), 0] "reference" rfl
  rw [hser] at hadd
  refine ⟨_, hadd, ⟨[(0:ℚ), 0], 2⟩, ?_, rfl, ?_⟩
  · rw [centOf_update_centroid_self]
    show some (⟨serialize_embedding (normalize_embedding
        (meanVec [[(1:ℚ), 0], [(-1:ℚ), 0]])), 2⟩ : CentroidRow) = some ⟨[(0:ℚ), 0], 2⟩
    have hmean : meanVec [[(1:ℚ), 0], [(-1:ℚ), 0]] = [(0:ℚ), 0] := by
      norm_num [meanVec, vsum, vadd]
    rw [hmean]
    have hs0 : sqrtQ (normSq [(0:ℚ), 0]) = 0 := by
      have h0 : normSq [(0:ℚ), 0] = 0 := by norm_num [normSq]
      rw [h0]
      unfold sqrtQ
      norm_num
    have h00 : normalize_embedding [(0:ℚ), 0] = [(0:ℚ), 0] := by
      have hlt : ¬ (0 < sqrtQ (normSq [(0:ℚ), 0])) := by
        rw [hs0]
        exact lt_irrefl 0
      simp only [normalize_embedding]
      rw [if_neg hlt]
    rw [h00]
    unfold serialize_embedding
    rw [h00]
  · norm_num [normSq]

/-- Claim C4, amended: after every embedding insert (`add_person_embedding`)
the person's centroid row exists and stores exactly the re-normalized mean
of the surviving embeddings together with their count; its L2 norm is 1
whenever the mean of the surviving embeddings is nonzero (exact-arithmetic
hypotheses stand in for float computation of the square root) — if the
mean is the zero vector the normalization guard stores the zero vector
instead (see the counterexample).  After `delete_person` the person has no
embeddings and no centroid row, so the row exists iff the person has at
least one embedding. -/
theorem c4_amended :
    (∀ (r : Registry) (pid : Nat) (v : Vec) (s : String) (r' : Registry),
      RegistryWF r →
      add_person_embedding r pid v s = some r' →
      embsOf r' pid ≠ [] ∧
      centOf r' pid = some ⟨serialize_embedding (normalize_embedding
          (meanVec ((embsOf r' pid).map (fun e => e.vec)))), (embsOf r' pid).length⟩) ∧
    (∀ (r : Registry) (pid : Nat) (v : Vec) (s : String) (r' : Registry),
      RegistryWF r →
      add_person_embedding r pid v s = some r' →
      0 < normSq (meanVec ((embsOf r' pid).map (fun e => e.vec))) →
      sqrtQ (normSq (meanVec ((embsOf r' pid).map (fun e => e.vec)))) *
          sqrtQ (normSq (meanVec ((embsOf r' pid).map (fun e => e.vec))))
        = normSq (meanVec ((embsOf r' pid).map (fun e => e.vec))) →
      ∃ c, centOf r' pid = some c ∧ normSq c.centroid = 1 ∧
        c.embeddingCount = (embsOf r' pid).length) ∧
    (∀ (r : Registry) (pid : Nat),
      embsOf (delete_person r pid).1 pid = [] ∧
        centOf (delete_person r pid).1 pid = none) := by
  have hmax : max_embeddings_per_person = 30 := rfl
  have h1 : ∀ (r : Registry) (pid : Nat) (v : Vec) (s : String) (r' : Registry),
      RegistryWF r →
      add_person_embedding r pid v s = some r' →
      embsOf r' pid ≠ [] ∧
      centOf r' pid = some ⟨serialize_embedding (normalize_embedding
          (meanVec ((embsOf r' pid).map (fun e => e.vec)))), (embsOf r' pid).length⟩ := by
    intro r pid v s r' hWF hadd
    have hp := personExists_of_add r pid v s r' hadd
    obtain ⟨r'', heq, _, _, _, hproj⟩ := add_person_embedding_spec r pid v s hWF hp
    have hr : r'' = r' := by
      rw [heq] at hadd
      exact Option.some_inj.mp hadd
    subst hr
    have hlenpos : 0 < (embsOf r'' pid).length := by
      rw [hproj, List.length_drop, List.length_append]
      simp only [List.length_cons, List.length_nil]
      omega
    have hne : embsOf r'' pid ≠ [] := by
      intro hcon
      rw [hcon] at hlenpos
      simp at hlenpos
    refine ⟨hne, ?_⟩
    rw [centOf_add r pid v s hp r'' hadd]
    rw [if_neg (by simp [List.isEmpty_iff, hne])]
  refine ⟨h1, ?_, fun r pid => delete_person_clears r pid⟩
  intro r pid v s r' hWF hadd hpos hexact
  obtain ⟨hne, hcent⟩ := h1 r pid v s r' hWF hadd
  refine ⟨_, hcent, ?_, rfl⟩
  have hn1 : normSq (normalize_embedding (meanVec ((embsOf r' pid).map (fun e => e.vec))))
      = 1 := normSq_normalize _ hpos hexact
  show normSq (serialize_embedding (normalize_embedding
    (meanVec ((embsOf r' pid).map (fun e => e.vec))))) = 1
  unfold serialize_embedding
  rw [normalize_of_unit _ hn1]
  exact hn1

theorem c4_amended_witness :
    ∃ r' : Registry,
      add_person_embedding (⟨[⟨1, "a", "fa"⟩], [], [], 0, 0⟩ : Registry) 1
          [(1:ℚ), 0] "reference" = some r' ∧
      embsOf r' 1 ≠ [] ∧
      (∃ c : CentroidRow, centOf r' 1 = some c ∧ normSq c.centroid = 1 ∧
        c.embeddingCount = (embsOf r' 1).length) ∧
      embsOf (delete_person r' 1).1 1 = [] ∧
      centOf (delete_person r' 1).1 1 = none := by
  have hns1 : normSq [(1:ℚ), 0] = 1 := by norm_num [normSq]
  have hser1 : serialize_embedding [(1:ℚ), 0] = [(1:ℚ), 0] := by
    unfold serialize_embedding
    exact normalize_of_unit _ hns1
  have hWF : RegistryWF (⟨[⟨1, "a", "fa"⟩], [], [], 0, 0⟩ : Registry) :=
    ⟨by simp, by simp, by simp, by simp⟩
  have hadd := add_person_embedding_eq
    (⟨[⟨1, "a", "fa"⟩], [], [], 0, 0⟩ : Registry) 1 [(1:ℚ), 0] "reference" rfl
  rw [hser1] at hadd
  have hm : meanVec [[(1:ℚ), 0]] = [(1:ℚ), 0] := by
    norm_num [meanVec, vsum, vadd]
  obtain ⟨hne, hcent⟩ := c4_amended.1 _ 1 [(1:ℚ), 0] "reference" _ hWF hadd
  obtain ⟨c, hc, hcn, hcc⟩ := c4_amended.2.1 _ 1 [(1:ℚ), 0] "reference" _ hWF hadd
    (by
      show (0:ℚ) < normSq (meanVec [[(1:ℚ), 0]])
      rw [hm, hns1]
      norm_num)
    (by
      show sqrtQ (normSq (meanVec [[(1:ℚ), 0]])) * sqrtQ (normSq (meanVec [[(1:ℚ), 0]]))
          = normSq (meanVec [[(1:ℚ), 0]])
      rw [hm, hns1, sqrtQ_one]
      norm_num)
  exact ⟨_, hadd, hne, ⟨c, hc, hcn, hcc⟩,
    (c4_amended.2.2 _ 1).1, (c4_amended.2.2 _ 1).2⟩

end SortFace
